import Mathlib

/-!
Big-number toolbox library: a shallow embedding of `bn_util.c` and `calc.c`.

A magnitude (`bn_t`) is a heap buffer `num` together with its byte count `size`.
The buffer is modelled as a list of bytes (natural numbers below 256) in address
order; a null `num` is `none`.  Every routine becomes a function returning the
mutated magnitude.  A read or write outside the buffer is a memory fault, which
the model reports as `none`.

Platform parameters, fixed as in the claims: `sizeof(ulong) = 8`,
`sizeof(int) = 4`, `INT_MAX = 2^31 - 1`, `size_t` is 64 bits wide.  The host
byte order stays a parameter `le` (`true` on a little-endian host): it selects
the branch the source takes at its run-time (`*(ubyte *)&tmp == 1`) and
compile-time (`__BYTE_ORDER`) tests, and the byte order in which a word is read
from and written to memory.

Cursors (`res`, `num`, `num1`, ...) are offsets relative to the start of the
buffer they walk, integers because the big-endian branches step downwards and
may leave the buffer at the front.  A cursor is an address inside the block it
was derived from: when `realloc` hands back a new block, a cursor derived
before the call still points into the released block, and an access through it
is a memory fault like any other access outside a live buffer.  Whether
`realloc` extends a block in place or moves it is the allocator's choice and
stays a parameter (`moved`) where a cursor lives across the call.  A magnitude
whose block has been released without its pointer being reset is a buffer
without any accessible byte.  Allocation does not run out of memory in the
model; `realloc(p, 0)` releases `p` and returns NULL, as glibc does.  Buffer
sizes are taken to stay far below `2^64`, so that sums of sizes do not
wrap; decrements of a `size_t` counter that can pass zero are modelled with
their wrap-around.  The one expression whose value C leaves open,
`INT_MAX << val` in `bn_sl`, is a parameter of that function.
-/

namespace Bntl

/-! ## Data model -/

/-- The magnitude record of the library: `num` is the owned buffer (`none` when
the pointer is null), `size` its length in bytes. -/
structure bn_t where
  num : Option (List Nat)
  size : Nat
deriving DecidableEq, Repr

/-- Bytes in a machine word, `sizeof(ulong)`. -/
def WORD : Nat := 8

/-- One more than the largest `size_t`/`ulong` value. -/
def TWO64 : Nat := 2 ^ 64

/-! ## Memory accesses -/

/-- Byte load `*p`: the byte at offset `p`, a fault outside the buffer. -/
def readByte (buf : List Nat) (p : Int) : Option Nat :=
  if 0 ≤ p then buf[p.toNat]? else none

/-- Byte store `*p = v`: a fault outside the buffer. -/
def writeByte (buf : List Nat) (p : Int) (v : Nat) : Option (List Nat) :=
  if 0 ≤ p ∧ p.toNat < buf.length then some (buf.set p.toNat v) else none

/-- The `n` bytes starting at byte offset `off`, a fault if any lies outside. -/
def load (buf : List Nat) (off : Int) (n : Nat) : Option (List Nat) :=
  if 0 ≤ off ∧ off.toNat + n ≤ buf.length then some ((buf.drop off.toNat).take n) else none

/-- Overwrite the bytes starting at byte offset `off` with `bs`, a fault if any
lies outside. -/
def store (buf : List Nat) (off : Int) (bs : List Nat) : Option (List Nat) :=
  if 0 ≤ off ∧ off.toNat + bs.length ≤ buf.length then
    some (buf.take off.toNat ++ bs ++ buf.drop (off.toNat + bs.length))
  else none

/-- Value of a byte string whose first byte is the least significant. -/
def valLE : List Nat → Nat
  | [] => 0
  | b :: bs => b + 256 * valLE bs

/-- Value of a byte string whose first byte is the most significant. -/
def valBE (bs : List Nat) : Nat :=
  bs.foldl (fun acc b => acc * 256 + b) 0

/-- The `k` low-order bytes of `w`, least significant first. -/
def bytesLE : Nat → Nat → List Nat
  | 0, _ => []
  | k + 1, w => w % 256 :: bytesLE k (w / 256)

/-- The word a host of byte order `le` sees in eight bytes of memory. -/
def decodeWord (le : Bool) (bs : List Nat) : Nat :=
  if le then valLE bs else valBE bs

/-- The eight bytes a host of byte order `le` stores for the word `w`. -/
def encodeWord (le : Bool) (w : Nat) : List Nat :=
  if le then bytesLE WORD w else (bytesLE WORD w).reverse

/-- Word load `*p` through a `ulong *` cursor `p` (counted in words). -/
def readWord (le : Bool) (buf : List Nat) (p : Int) : Option Nat :=
  (load buf (WORD * p) WORD).map (decodeWord le)

/-- Word store `*p = w` through a `ulong *` cursor `p` (counted in words). -/
def writeWord (le : Bool) (buf : List Nat) (p : Int) (w : Nat) : Option (List Nat) :=
  store buf (WORD * p) (encodeWord le w)

/-- What `realloc(p, n)` hands back for the block `buf`: NULL (`none`) for
`n = 0`, the block being released; otherwise the old content up to the new
length, and bytes the program has not chosen (`junk`, indexed by offset) beyond
the old length. -/
def realloc (junk : Nat → Nat) (buf : List Nat) (n : Nat) : Option (List Nat) :=
  if n = 0 then none
  else some (buf.take n ++ (List.range (n - buf.length)).map (fun i => junk (buf.length + i) % 256))

/-! ## Lifecycle -/

/-- Modelled from the spec: `bn_init` is declared in `bntl.h` and defined outside
the given sources; per the spec it "allocates a zero-filled buffer of the given
byte size". -/
def bn_init (size : Nat) : bn_t :=
  { num := some (List.replicate size 0), size := size }

/-- `bn_free`: release the buffer, null the pointer, reset the size. -/
def bn_free (_number : bn_t) : bn_t :=
  { num := none, size := 0 }

/-! ## Copies -/

/-- First loop of `bn_hcpy`: `while (num_size > 0 && res_size > 0)`, copying one
byte per round.  Returns the buffer, the cursor `res` and the remaining
`res_size`. -/
def bn_hcpy_copy (inc : Int) (nbuf : List Nat) :
    Nat → Nat → List Nat → Int → Int → Option (List Nat × Int × Nat)
  | 0, _, rbuf, res, _ => some (rbuf, res, 0)
  | rs + 1, 0, rbuf, res, _ => some (rbuf, res, rs + 1)
  | rs + 1, ns + 1, rbuf, res, num =>
    match readByte nbuf num with
    | none => none
    | some b =>
      match writeByte rbuf res b with
      | none => none
      | some rbuf1 => bn_hcpy_copy inc nbuf rs ns rbuf1 (res + inc) (num + inc)

/-- The zero-fill loop closing `bn_hcpy` and `bn_ncpy`:
`while (res_size > 0) { *res = 0; res += inc; --res_size; }`. -/
def bn_zero_fill (inc : Int) : Nat → List Nat → Int → Option (List Nat)
  | 0, rbuf, _ => some rbuf
  | rs + 1, rbuf, res =>
    match writeByte rbuf res 0 with
    | none => none
    | some rbuf1 => bn_zero_fill inc rs rbuf1 (res + inc)

/-- `bn_hcpy(result, number)`: copy without reallocating `result`. -/
def bn_hcpy (le : Bool) (result number : bn_t) : Option bn_t :=
  match number.num with
  | none => some result
  | some nbuf =>
    let result1 := if result.num = none then bn_init number.size else result
    match result1.num with
    | none => none
    | some rbuf =>
      let res : Int := if le then 0 else (result1.size : Int) - 1
      let num : Int := if le then 0 else (number.size : Int) - 1
      let inc : Int := if le then 1 else -1
      match bn_hcpy_copy inc nbuf result1.size number.size rbuf res num with
      | none => none
      | some (rbuf1, res1, res_size) =>
        match bn_zero_fill inc res_size rbuf1 res1 with
        | none => none
        | some rbuf2 => some { result1 with num := some rbuf2 }

/-- Word loop of `bn_cpy`: `while (size > 0) { *res = *num; ++res; ++num; --size; }`
with `ulong *` cursors; a word copy moves eight bytes whatever the byte order. -/
def bn_cpy_loop (nbuf : List Nat) : Nat → List Nat → Int → Int → Option (List Nat)
  | 0, rbuf, _, _ => some rbuf
  | size + 1, rbuf, res, num =>
    match load nbuf (WORD * num) WORD with
    | none => none
    | some w =>
      match store rbuf (WORD * res) w with
      | none => none
      | some rbuf1 => bn_cpy_loop nbuf size rbuf1 (res + 1) (num + 1)

/-- `bn_cpy(result, number)`: reallocate `result` to `number->size` bytes and
copy `number->size / sizeof(ulong)` words.  When `realloc` returns NULL the
function returns at once: `result->size` keeps its value and `result->num`
keeps the address of the block that `realloc` has released. -/
def bn_cpy (junk : Nat → Nat) (result number : bn_t) : Option bn_t :=
  match number.num with
  | none => some result
  | some nbuf =>
    let result1 : Option bn_t :=
      match result.num with
      | none => some (bn_init number.size)
      | some rbuf =>
        match realloc junk rbuf number.size with
        | none => none
        | some tmp => some { num := some tmp, size := number.size }
    match result1 with
    | none => some { result with num := some [] }
    | some result1 =>
      match result1.num with
      | none => none
      | some rbuf =>
        match bn_cpy_loop nbuf (number.size / WORD) rbuf 0 0 with
        | none => none
        | some rbuf1 => some { result1 with num := some rbuf1 }

/-- First loop of `bn_ncpy`: `while (size > 0)`, copying one byte per round and
decrementing `res_size` (a `size_t`, so the decrement wraps at zero).  Returns
the buffer, the cursor `res` and the remaining `res_size`. -/
def bn_ncpy_copy (inc : Int) (nbuf : List Nat) :
    Nat → Nat → List Nat → Int → Int → Option (List Nat × Int × Nat)
  | 0, res_size, rbuf, res, _ => some (rbuf, res, res_size)
  | size + 1, res_size, rbuf, res, num =>
    match readByte nbuf num with
    | none => none
    | some b =>
      match writeByte rbuf res b with
      | none => none
      | some rbuf1 =>
        bn_ncpy_copy inc nbuf size ((res_size + TWO64 - 1) % TWO64) rbuf1 (res + inc) (num + inc)

/-- `bn_ncpy(result, number, size)`: copy `size` bytes, zero the rest of `result`. -/
def bn_ncpy (le : Bool) (result number : bn_t) (size : Nat) : Option bn_t :=
  match number.num with
  | none => some result
  | some nbuf =>
    let result1 := if result.num = none then bn_init size else result
    match result1.num with
    | none => none
    | some rbuf =>
      let res : Int := if le then 0 else (result1.size : Int) - 1
      let num : Int := if le then 0 else (number.size : Int) - 1
      let inc : Int := if le then 1 else -1
      let res_size := result1.size
      let size1 :=
        if size > number.size then (if number.size > res_size then res_size else number.size)
        else size
      match bn_ncpy_copy inc nbuf size1 res_size rbuf res num with
      | none => none
      | some (rbuf1, res1, res_size1) =>
        match bn_zero_fill inc res_size1 rbuf1 res1 with
        | none => none
        | some rbuf2 => some { result1 with num := some rbuf2 }

/-- `bn_ext(number, bytes)`: grow `number` by `bytes` bytes through a temporary. -/
def bn_ext (le : Bool) (junk : Nat → Nat) (number : bn_t) (bytes : Nat) : Option bn_t :=
  match number.num with
  | none => some (bn_init bytes)
  | some _ =>
    match bn_hcpy le (bn_init (number.size + bytes)) number with
    | none => none
    | some tmp => bn_cpy junk number tmp

/-- `INT_MAX` for a 32-bit `int`. -/
def INT_MAX : Nat := 2 ^ 31 - 1

/-- Scan loop of `bn_srk`: `while (--size > 0) { if ((*num & INT_MAX) != 0) break;
num += add; }`.  The first argument is the value `--size` has just produced;
the result is `size` when the loop is left. -/
def bn_srk_scan (le : Bool) (add : Int) (buf : List Nat) : Nat → Int → Option Nat
  | 0, _ => some 0
  | size + 1, num =>
    match readWord le buf num with
    | none => none
    | some w =>
      if w &&& INT_MAX ≠ 0 then some (size + 1)
      else bn_srk_scan le add buf size (num + add)

/-- `bn_srk(number)`: shrink.  `size` counts `number->size / sizeof(int)` units,
is pre-decremented before every test, and is then passed on as a byte count. -/
def bn_srk (le : Bool) (junk : Nat → Nat) (number : bn_t) : Option bn_t :=
  match number.num with
  | none => some number
  | some buf =>
    let num : Int := if le then 0 else (number.size : Int) - 1
    let add : Int := if le then 1 else -1
    let old_size := number.size / 4
    match bn_srk_scan le add buf ((old_size + TWO64 - 1) % TWO64) num with
    | none => none
    | some size =>
      if size ≠ old_size then
        match bn_ncpy le (bn_init size) number size with
        | none => none
        | some tmp => bn_cpy junk number tmp
      else some number

/-! ## Comparison -/

/-- First skip loop of `bn_comp` together with the `size1++` that follows it:
`while ((size1--) > size2 && *(num1++) == 0) {}`.  The post-decrement and the
`size1++` cancel when the size test fails (also at zero, where the decrement
wraps); when a non-zero byte ends the loop the cursor has moved past it.
Returns `size1` and the cursor. -/
def bn_comp_skip1 (buf1 : List Nat) (size2 : Nat) : Nat → Int → Option (Nat × Int)
  | 0, num1 => some (0, num1)
  | size1 + 1, num1 =>
    if size1 + 1 > size2 then
      match readByte buf1 num1 with
      | none => none
      | some b =>
        if b = 0 then bn_comp_skip1 buf1 size2 size1 (num1 + 1)
        else some (size1 + 1, num1 + 1)
    else some (size1 + 1, num1)

/-- Second skip loop of `bn_comp` together with the `size2++` that follows it:
`while (size1 < (size2--) && *(num2++) == 0) {}`. -/
def bn_comp_skip2 (buf2 : List Nat) (size1 : Nat) : Nat → Int → Option (Nat × Int)
  | 0, num2 => some (0, num2)
  | size2 + 1, num2 =>
    if size1 < size2 + 1 then
      match readByte buf2 num2 with
      | none => none
      | some b =>
        if b = 0 then bn_comp_skip2 buf2 size1 size2 (num2 + 1)
        else some (size2 + 1, num2 + 1)
    else some (size2 + 1, num2)

/-- Final loop of `bn_comp`: byte by byte from the cursors, `*result` starting at 0. -/
def bn_comp_bytes (buf1 buf2 : List Nat) : Nat → Int → Int → Option Nat
  | 0, _, _ => some 0
  | size1 + 1, num1, num2 =>
    match readByte buf1 num1, readByte buf2 num2 with
    | some a, some b =>
      if a > b then some 1
      else if a < b then some 2
      else bn_comp_bytes buf1 buf2 size1 (num1 + 1) (num2 + 1)
    | _, _ => none

/-- `bn_comp(number1, number2, result)`: the value stored in `*result`.  An
argument `none` is a null `bn_t *`; a null `num` is a buffer without bytes. -/
def bn_comp (number1 number2 : Option bn_t) : Option Nat :=
  match number1, number2 with
  | none, none => some 0
  | none, some _ => some 1
  | some _, none => some 2
  | some n1, some n2 =>
    let buf1 := n1.num.getD []
    let buf2 := n2.num.getD []
    match bn_comp_skip1 buf1 n2.size n1.size 0 with
    | none => none
    | some (size1, num1) =>
      match bn_comp_skip2 buf2 size1 n2.size 0 with
      | none => none
      | some (size2, num2) =>
        if size1 > size2 then some 1
        else if size1 < size2 then some 2
        else bn_comp_bytes buf1 buf2 size1 num1 num2

/-! ## Addition -/

/-- How a run of the addition loop ends: normally, with a memory fault, or
still running after the allotted number of rounds. -/
inductive Outcome (α : Type) where
  | done (a : α)
  | fault
  | timeout
deriving DecidableEq, Repr

/-- `ULONG_MAX` for a 64-bit `unsigned long`. -/
def ULONG_MAX : Nat := 2 ^ 64 - 1

/-- One round of the body of the loop of `bn_sum` on the word `x1 = *num1`, the
addend word `x2 = *num2` (used only when `has2`, that is `size2 > 0`) and the
incoming carry, statement by statement; returns the new `*num1` and the carry. -/
def sum_word (has2 : Bool) (x1 x2 carry : Nat) : Nat × Nat :=
  let shift := WORD * 8 / 2
  let low := ULONG_MAX >>> shift
  let high := (ULONG_MAX <<< shift) % TWO64
  let tmp := if has2 then x2 &&& low else 0
  let tmp := (tmp + ((x1 &&& low) + carry)) % TWO64
  let carry := (tmp &&& high) >>> shift
  let tmp := tmp ^^^ (tmp &&& high)
  let x1 := x1 ^^^ (x1 &&& low)
  let x1 := x1 ||| tmp
  let tmp := if has2 then (x2 &&& high) >>> shift else 0
  let tmp := (tmp + (((x1 &&& high) >>> shift) + carry)) % TWO64
  let carry := (tmp &&& high) >>> shift
  let tmp := (tmp <<< shift) % TWO64
  let x1 := x1 ^^^ (x1 &&& high)
  let x1 := x1 ||| tmp
  (x1, carry)

/-- The loop of `bn_sum`, `while(size1 > 0 && (size2 > 0 || carry != 0))`, run
for at most `fuel` rounds.  `num1` and `num2` are word cursors, set once before
the loop from `number1->num` and `number2->num` and afterwards only stepped by
`inc`; the offset of `num1` is counted from the start of the block it was
derived from.  The `bn_ext` inside the loop reallocates `number1->num` and the
code does not derive `num1` again: `moved` says whether that `realloc` hands
back a new block, and `stale` that `num1` points into a released block, so
that the accesses `*num1` of the round are a fault. -/
def bn_sum_loop (le : Bool) (junk : Nat → Nat) (moved : Bool) (buf2 : List Nat) :
    Nat → bn_t → Bool → Nat → Nat → Int → Int → Nat → Outcome bn_t
  | 0, number1, _, size1, size2, _, _, carry =>
    if size1 > 0 ∧ (size2 > 0 ∨ carry ≠ 0) then Outcome.timeout else Outcome.done number1
  | fuel + 1, number1, stale, size1, size2, num1, num2, carry =>
    if size1 > 0 ∧ (size2 > 0 ∨ carry ≠ 0) then
      let inc : Int := if le then 1 else -1
      match (if size2 > 0 then readWord le buf2 num2 else some 0),
            (if stale then none else readWord le (number1.num.getD []) num1) with
      | some x2, some x1 =>
        let r := sum_word (decide (size2 > 0)) x1 x2 carry
        match writeWord le (number1.num.getD []) num1 r.1 with
        | none => Outcome.fault
        | some buf1 =>
          let number1a : bn_t := { number1 with num := some buf1 }
          let num2a : Int := if size2 > 0 then num2 + inc else num2
          let size2a : Nat := if size2 > 0 then size2 - 1 else size2
          if size1 - 1 = 0 ∧ r.2 ≠ 0 then
            match bn_ext le junk number1a WORD with
            | none => Outcome.fault
            | some number1b =>
              bn_sum_loop le junk moved buf2 fuel number1b moved (size1 - 1 + WORD) size2a
                (num1 + inc) num2a r.2
          else
            bn_sum_loop le junk moved buf2 fuel number1a stale (size1 - 1) size2a
              (num1 + inc) num2a r.2
      | _, _ => Outcome.fault
    else Outcome.done number1

/-- `bn_sum(number1, number2)`: add `number2` into `number1`; returns both
magnitudes as the call leaves them.  The cursors are derived after the first
`bn_ext`, so `num1` starts inside the live block whatever that `realloc` did. -/
def bn_sum (le : Bool) (junk : Nat → Nat) (moved : Bool) (fuel : Nat) (number1 number2 : bn_t) :
    Outcome (bn_t × bn_t) :=
  match number1.num, number2.num with
  | some _, some buf2 =>
    match (if number1.size < number2.size then
             bn_ext le junk number1 (number2.size - number1.size)
           else some number1) with
    | none => Outcome.fault
    | some n1 =>
      let size1 := n1.size / WORD
      let size2 := number2.size / WORD
      let num1 : Int := if le then 0 else (size1 : Int) - 1
      let num2 : Int := if le then 0 else (size2 : Int) - 1
      match bn_sum_loop le junk moved buf2 fuel n1 false size1 size2 num1 num2 0 with
      | Outcome.done r => Outcome.done (r, number2)
      | Outcome.fault => Outcome.fault
      | Outcome.timeout => Outcome.timeout
  | _, _ => Outcome.done (number1, number2)

/-! ## Byte reversal -/

/-- Swap loop of `bn_rev`: `while (size > 0) { tmp = *start; *start = *end;
*end = tmp; ++start; --end; --size; }`; `endp` is the cursor `end`. -/
def bn_rev_loop : Nat → List Nat → Int → Int → Option (List Nat)
  | 0, buf, _, _ => some buf
  | size + 1, buf, start, endp =>
    match readByte buf start, readByte buf endp with
    | some tmp, some e =>
      match writeByte buf start e with
      | none => none
      | some buf1 =>
        match writeByte buf1 endp tmp with
        | none => none
        | some buf2 => bn_rev_loop size buf2 (start + 1) (endp - 1)
    | _, _ => none

/-- `bn_rev(number)`: reverse the bytes of the buffer in place. -/
def bn_rev (number : bn_t) : Option bn_t :=
  match number.num with
  | none => some number
  | some buf =>
    match bn_rev_loop (number.size / 2) buf 0 ((number.size : Int) - 1) with
    | none => none
    | some buf1 => some { number with num := some buf1 }

/-! ## Left shift -/

/-- Block-move loop of `bn_sl`: `while(shift > 0) { *end = *num_end; end -= inc;
num_end -= inc; --shift; }`, reading words of the old buffer `obuf` at `num_end`
and storing them in the destination buffer at `endp` (the cursor `end`). -/
def bn_sl_move (inc : Int) (obuf : List Nat) : Nat → List Nat → Int → Int → Option (List Nat)
  | 0, dbuf, _, _ => some dbuf
  | shift + 1, dbuf, endp, num_end =>
    match load obuf (WORD * num_end) WORD with
    | none => none
    | some w =>
      match store dbuf (WORD * endp) w with
      | none => none
      | some dbuf1 => bn_sl_move inc obuf shift dbuf1 (endp - inc) (num_end - inc)

/-- Bit-shift loop of `bn_sl`: `while (size > 0 && val > 0)`.  `mask` is the
`ulong` value of the `int` expression `INT_MAX << val`; `carry` is a `ubyte`,
so the assignment `carry = tmp` keeps the low eight bits of `tmp`. -/
def bn_sl_bits (le : Bool) (mask val : Nat) (inc : Int) :
    Nat → List Nat → Int → Nat → Option (List Nat)
  | 0, buf, _, _ => some buf
  | size + 1, buf, start, carry =>
    if val > 0 then
      match readWord le buf start with
      | none => none
      | some x =>
        let tmp := (x &&& mask) >>> val
        let x1 := (x <<< val) % TWO64
        let x2 := x1 ||| carry
        match writeWord le buf start x2 with
        | none => none
        | some buf1 => bn_sl_bits le mask val inc size buf1 (start + inc) (tmp % 256)
    else some buf

/-- `bn_sl(number, val)`: shift left by `val` bits.  The expression
`INT_MAX << val` overflows `int` for every `val > 0`, so C does not fix its
value; `int_max_shl val` stands for the `ulong` it is converted to on the host.
`newnum` is the zero-filled `calloc` block of `number->size / sizeof(ulong)`
words taken when `val >= 64`; the block move runs only in that case, from the
old buffer into `newnum`. -/
def bn_sl (le : Bool) (int_max_shl : Nat → Nat) (number : bn_t) (val : Nat) : Option bn_t :=
  match number.num with
  | none => some number
  | some buf =>
    let words : Int := ((number.size / WORD : Nat) : Int)
    let newnum : Option (List Nat) :=
      if val ≥ WORD * 8 then some (List.replicate (number.size / WORD * WORD) 0) else none
    let dbuf : List Nat := newnum.getD buf
    let num_end : Int := if le then words - 1 else 0
    let start : Int := if le then 0 else words - 1
    let endp : Int := if le then words - 1 else 0
    let inc : Int := if le then 1 else -1
    let shift := val / (WORD * 8)
    let val1 := val - shift * (WORD * 8)
    match bn_sl_move inc buf shift dbuf endp (num_end - inc * shift) with
    | none => none
    | some dbuf1 =>
      match bn_sl_bits le (int_max_shl val1) val1 inc (number.size / WORD) dbuf1 start 0 with
      | none => none
      | some dbuf2 => some { number with num := some dbuf2 }

/-! ## Notions used to state the properties -/

/-- Bytes are below 256. -/
def isBytes (buf : List Nat) : Prop := ∀ b ∈ buf, b < 256

instance (buf : List Nat) : Decidable (isBytes buf) := by
  unfold isBytes; infer_instance

/-- The buffer of a magnitude, without bytes when the pointer is null. -/
def bytes (m : bn_t) : List Nat := m.num.getD []

/-- An initialized magnitude: a non-null buffer of exactly `size` bytes. -/
def initialized (m : bn_t) : Prop :=
  m.num.isSome = true ∧ (bytes m).length = m.size ∧ isBytes (bytes m)

instance (m : bn_t) : Decidable (initialized m) := by
  unfold initialized; infer_instance

/-- The result code of `bn_comp` for two values: 0 equal, 1 first greater,
2 second greater. -/
def cmpCode (x y : Nat) : Nat :=
  if x > y then 1 else if x < y then 2 else 0

/-- The first `n` words of a buffer as a host of byte order `le` reads them. -/
def wordsAux (le : Bool) : Nat → List Nat → List Nat
  | 0, _ => []
  | n + 1, buf => decodeWord le (buf.take WORD) :: wordsAux le n (buf.drop WORD)

/-- The words of the buffer of a magnitude, word 0 first. -/
def words (le : Bool) (buf : List Nat) : List Nat :=
  wordsAux le (buf.length / WORD) buf

/-- Value of a word string whose first word is the least significant. -/
def valWords : List Nat → Nat
  | [] => 0
  | w :: ws => w + 2 ^ 64 * valWords ws

/-! ## Memory accesses at a cursor inside the buffer -/

theorem readByte_natCast (buf : List Nat) (k : Nat) : readByte buf (k : Int) = buf[k]? := by
  simp [readByte]

theorem writeByte_natCast (buf : List Nat) (k v : Nat) :
    writeByte buf (k : Int) v = if k < buf.length then some (buf.set k v) else none := by
  simp [writeByte]

/-! ## The byte loops on a little-endian host -/

theorem bn_hcpy_copy_le (nbuf : List Nat) :
    ∀ (rs ns : Nat) (rbuf : List Nat) (k : Nat),
      k + rs ≤ rbuf.length → k + ns ≤ nbuf.length →
      ∃ r, bn_hcpy_copy 1 nbuf rs ns rbuf k k = some (r, ((k + min rs ns : Nat) : Int), rs - min rs ns)
        ∧ r.length = rbuf.length
        ∧ ∀ i, r[i]? = if k ≤ i ∧ i < k + min rs ns then nbuf[i]? else rbuf[i]? := by
  intro rs
  induction rs with
  | zero =>
    intro ns rbuf k _ _
    exact ⟨rbuf, by simp [bn_hcpy_copy], rfl, by
      intro i; rw [if_neg]; simp only [Nat.zero_min]; omega⟩
  | succ rs ih =>
    intro ns rbuf k hr hn
    cases ns with
    | zero => exact ⟨rbuf, by simp [bn_hcpy_copy], rfl, by
        intro i; rw [if_neg]; simp only [Nat.min_zero]; omega⟩
    | succ ns =>
      have hk : k < nbuf.length := by omega
      have hk2 : k < rbuf.length := by omega
      obtain ⟨r, hrun, hlen, hget⟩ := ih ns (rbuf.set k nbuf[k]) (k + 1)
        (by simp; omega) (by omega)
      refine ⟨r, ?_, by simpa using hlen, ?_⟩
      · simp only [bn_hcpy_copy, readByte_natCast, writeByte_natCast,
          List.getElem?_eq_getElem hk, if_pos hk2]
        have e : ((k : Int) + 1) = ((k + 1 : Nat) : Int) := by push_cast; rfl
        rw [e, hrun]
        simp only [Nat.succ_min_succ, Nat.succ_sub_succ]
        congr 3
        omega
      · intro i
        rw [hget i, List.getElem?_set]
        simp only [Nat.succ_min_succ]
        by_cases h1 : k = i
        · subst h1
          simp [hk, hk2]
        · simp only [h1, if_false]
          by_cases h2 : k + 1 ≤ i ∧ i < k + 1 + min rs ns
          · rw [if_pos h2, if_pos (by omega)]
          · rw [if_neg h2, if_neg (by omega)]

theorem bn_zero_fill_le :
    ∀ (rs : Nat) (rbuf : List Nat) (k : Nat), k + rs ≤ rbuf.length →
      ∃ r, bn_zero_fill 1 rs rbuf k = some r ∧ r.length = rbuf.length
        ∧ ∀ i, r[i]? = if k ≤ i ∧ i < k + rs then some 0 else rbuf[i]? := by
  intro rs
  induction rs with
  | zero =>
    intro rbuf k _
    exact ⟨rbuf, by simp [bn_zero_fill], rfl, by intro i; rw [if_neg]; omega⟩
  | succ rs ih =>
    intro rbuf k hr
    have hk2 : k < rbuf.length := by omega
    obtain ⟨r, hrun, hlen, hget⟩ := ih (rbuf.set k 0) (k + 1) (by simp; omega)
    refine ⟨r, ?_, by simpa using hlen, ?_⟩
    · simp only [bn_zero_fill, writeByte_natCast, if_pos hk2]
      have e : ((k : Int) + 1) = ((k + 1 : Nat) : Int) := by push_cast; rfl
      rw [e, hrun]
    · intro i
      rw [hget i, List.getElem?_set]
      by_cases h1 : k = i
      · subst h1
        simp [hk2]
      · simp only [h1, if_false]
        by_cases h2 : k + 1 ≤ i ∧ i < k + 1 + rs
        · rw [if_pos h2, if_pos (by omega)]
        · rw [if_neg h2, if_neg (by omega)]

theorem initialized_num {m : bn_t} (h : initialized m) : m.num = some (bytes m) := by
  obtain ⟨h1, _, _⟩ := h
  cases hn : m.num with
  | none => simp [hn] at h1
  | some b => simp [bytes, hn]

/-! ## Values of byte strings -/

theorem valLE_append (a b : List Nat) :
    valLE (a ++ b) = valLE a + 256 ^ a.length * valLE b := by
  induction a with
  | nil => simp [valLE]
  | cons x a ih =>
    show valLE (x :: (a ++ b)) = valLE (x :: a) + 256 ^ (a.length + 1) * valLE b
    simp only [valLE, ih, pow_succ]
    ring

theorem valLE_replicate_zero (n : Nat) : valLE (List.replicate n 0) = 0 := by
  induction n with
  | zero => rfl
  | succ n ih => simp [List.replicate_succ, valLE, ih]

theorem isBytes_cons {x : Nat} {a : List Nat} :
    isBytes (x :: a) ↔ x < 256 ∧ isBytes a := by
  simp [isBytes]

theorem isBytes_append {a b : List Nat} :
    isBytes (a ++ b) ↔ isBytes a ∧ isBytes b := by
  simp only [isBytes, List.mem_append]
  constructor
  · intro h
    exact ⟨fun x hx => h x (Or.inl hx), fun x hx => h x (Or.inr hx)⟩
  · rintro ⟨h1, h2⟩ x (hx | hx)
    · exact h1 x hx
    · exact h2 x hx

theorem isBytes_replicate_zero (n : Nat) : isBytes (List.replicate n 0) := by
  intro b hb
  rw [List.mem_replicate] at hb
  omega

theorem isBytes_take {a : List Nat} (h : isBytes a) (k : Nat) : isBytes (a.take k) :=
  fun b hb => h b (List.mem_of_mem_take hb)

theorem isBytes_drop {a : List Nat} (h : isBytes a) (k : Nat) : isBytes (a.drop k) :=
  fun b hb => h b (List.mem_of_mem_drop hb)

theorem valLE_lt {a : List Nat} (h : isBytes a) : valLE a < 256 ^ a.length := by
  induction a with
  | nil => simp [valLE]
  | cons x a ih =>
    rw [isBytes_cons] at h
    have := ih h.2
    simp only [valLE, List.length_cons, pow_succ]
    omega

theorem valLE_take {a : List Nat} (h : isBytes a) (k : Nat) :
    valLE (a.take k) = valLE a % 256 ^ k := by
  by_cases hk : k ≤ a.length
  · have e := valLE_append (a.take k) (a.drop k)
    rw [List.take_append_drop, List.length_take, Nat.min_eq_left hk] at e
    have hlt := valLE_lt (isBytes_take h k)
    rw [List.length_take, Nat.min_eq_left hk] at hlt
    rw [e, Nat.add_mul_mod_self_left, Nat.mod_eq_of_lt hlt]
  · have hlt := valLE_lt h
    have hle : 256 ^ a.length ≤ 256 ^ k := Nat.pow_le_pow_right (by norm_num) (by omega)
    rw [List.take_of_length_le (by omega), Nat.mod_eq_of_lt (by omega)]

/-! ## `bn_hcpy` on a little-endian host -/

theorem bn_hcpy_le_eq (dbuf sbuf : List Nat) :
    bn_hcpy true ⟨some dbuf, dbuf.length⟩ ⟨some sbuf, sbuf.length⟩
      = some ⟨some (sbuf.take dbuf.length
          ++ List.replicate (dbuf.length - min dbuf.length sbuf.length) 0), dbuf.length⟩ := by
  obtain ⟨r1, hrun1, hlen1, hget1⟩ :=
    bn_hcpy_copy_le sbuf dbuf.length sbuf.length dbuf 0 (by omega) (by omega)
  obtain ⟨r2, hrun2, hlen2, hget2⟩ :=
    bn_zero_fill_le (dbuf.length - min dbuf.length sbuf.length) r1
      (0 + min dbuf.length sbuf.length) (by omega)
  simp only [bn_hcpy, if_true]
  simp only [Nat.cast_zero] at hrun1
  simp only [reduceCtorEq, if_false, hrun1, hrun2]
  congr 3
  apply List.ext_getElem?
  intro i
  rw [hget2 i, hget1 i, List.getElem?_append, List.getElem?_take, List.getElem?_replicate,
    List.length_take]
  by_cases h1 : i < min dbuf.length sbuf.length
  · rw [if_neg (by omega), if_pos ⟨by omega, by omega⟩, if_pos h1, if_pos (by omega)]
  · by_cases h2 : i < dbuf.length
    · rw [if_pos (by omega), if_neg h1, if_pos (by omega)]
    · rw [if_neg (by omega), if_neg (by omega), if_neg h1, if_neg (by omega),
        List.getElem?_eq_none (by omega)]

theorem initialized_eta {m : bn_t} (h : initialized m) :
    m = ⟨some (bytes m), (bytes m).length⟩ := by
  have h1 := initialized_num h
  obtain ⟨_, h2, _⟩ := h
  cases m with
  | mk num size =>
    simp only [bn_t.mk.injEq]
    exact ⟨h1, h2.symm⟩

theorem initialized_mk {buf : List Nat} (h : isBytes buf) :
    initialized ⟨some buf, buf.length⟩ :=
  ⟨rfl, rfl, h⟩

/-! ## Word copies -/

theorem load_natCast (buf : List Nat) (k n : Nat) :
    load buf (WORD * (k : Int)) n
      = if 8 * k + n ≤ buf.length then some ((buf.drop (8 * k)).take n) else none := by
  have e : (WORD : Int) * (k : Int) = ((8 * k : Nat) : Int) := by simp [WORD]
  rw [e]
  simp only [load, Int.toNat_ofNat, Int.ofNat_zero_le, true_and]

theorem store_natCast (buf : List Nat) (k : Nat) (bs : List Nat) :
    store buf (WORD * (k : Int)) bs
      = if 8 * k + bs.length ≤ buf.length then
          some (buf.take (8 * k) ++ bs ++ buf.drop (8 * k + bs.length))
        else none := by
  have e : (WORD : Int) * (k : Int) = ((8 * k : Nat) : Int) := by simp [WORD]
  rw [e]
  simp only [store, Int.toNat_ofNat, Int.ofNat_zero_le, true_and]

theorem getElem?_splice (buf bs : List Nat) (o i : Nat) (h : o + bs.length ≤ buf.length) :
    (buf.take o ++ bs ++ buf.drop (o + bs.length))[i]?
      = if o ≤ i ∧ i < o + bs.length then bs[i - o]? else buf[i]? := by
  rw [List.append_assoc, List.getElem?_append, List.getElem?_take, List.length_take,
    Nat.min_eq_left (by omega), List.getElem?_append, List.getElem?_drop]
  by_cases h1 : i < o
  · rw [if_pos h1, if_pos h1, if_neg (by omega)]
  · rw [if_neg h1]
    by_cases h2 : i - o < bs.length
    · rw [if_pos h2, if_pos ⟨by omega, by omega⟩]
    · rw [if_neg h2, if_neg (by omega)]
      congr 1
      omega

theorem length_splice (buf bs : List Nat) (o : Nat) (h : o + bs.length ≤ buf.length) :
    (buf.take o ++ bs ++ buf.drop (o + bs.length)).length = buf.length := by
  simp only [List.length_append, List.length_take, List.length_drop]
  omega

theorem bn_cpy_loop_spec (nbuf : List Nat) :
    ∀ (n : Nat) (rbuf : List Nat) (k : Nat),
      8 * (k + n) ≤ rbuf.length → 8 * (k + n) ≤ nbuf.length →
      ∃ r, bn_cpy_loop nbuf n rbuf k k = some r ∧ r.length = rbuf.length
        ∧ ∀ i, r[i]? = if 8 * k ≤ i ∧ i < 8 * (k + n) then nbuf[i]? else rbuf[i]? := by
  intro n
  induction n with
  | zero =>
    intro rbuf k _ _
    exact ⟨rbuf, by simp [bn_cpy_loop], rfl, by intro i; rw [if_neg]; omega⟩
  | succ n ih =>
    intro rbuf k hr hn
    have hl : ((nbuf.drop (8 * k)).take 8).length = 8 := by
      rw [List.length_take, List.length_drop]; omega
    have hs : 8 * k + ((nbuf.drop (8 * k)).take 8).length ≤ rbuf.length := by
      rw [hl]; omega
    obtain ⟨r, hrun, hlen, hget⟩ :=
      ih (rbuf.take (8 * k) ++ (nbuf.drop (8 * k)).take 8
            ++ rbuf.drop (8 * k + ((nbuf.drop (8 * k)).take 8).length)) (k + 1)
        (by rw [length_splice _ _ _ hs]; omega) (by omega)
    refine ⟨r, ?_, ?_, ?_⟩
    · simp only [bn_cpy_loop, load_natCast, store_natCast]
      rw [if_pos (by simp only [WORD]; omega)]
      simp only [WORD]
      rw [if_pos hs]
      have e : ((k : Int) + 1) = ((k + 1 : Nat) : Int) := by push_cast; rfl
      simp only [e]
      exact hrun
    · rw [hlen, length_splice _ _ _ hs]
    · intro i
      rw [hget i, getElem?_splice _ _ _ _ hs, hl]
      by_cases h1 : 8 * (k + 1) ≤ i ∧ i < 8 * (k + 1 + n)
      · rw [if_pos h1, if_pos (by omega)]
      · rw [if_neg h1]
        by_cases h2 : 8 * k ≤ i ∧ i < 8 * k + 8
        · rw [if_pos h2, if_pos (by omega), List.getElem?_take, if_pos (by omega),
            List.getElem?_drop]
          congr 1
          omega
        · rw [if_neg h2, if_neg (by omega)]

theorem length_realloc (junk : Nat → Nat) (buf : List Nat) (n : Nat) (hn : n ≠ 0) :
    ∃ r, realloc junk buf n = some r ∧ r.length = n := by
  refine ⟨_, by rw [realloc, if_neg hn], ?_⟩
  simp only [List.length_append, List.length_take, List.length_map, List.length_range]
  omega

/-- Copying an empty source over a destination that owns a block: `realloc`
returns NULL and the destination keeps its size field over a released block. -/
theorem bn_cpy_empty_source (junk : Nat → Nat) (rbuf : List Nat) (sz : Nat) :
    bn_cpy junk ⟨some rbuf, sz⟩ ⟨some [], 0⟩ = some ⟨some [], sz⟩ := by
  simp [bn_cpy, realloc]

/-- Copying a word-aligned source that is not empty, or into a destination
without a block: whatever the destination held, it becomes the source. -/
theorem bn_cpy_aligned (junk : Nat → Nat) (result : bn_t) (nbuf : List Nat)
    (hal : nbuf.length % 8 = 0) (h0 : nbuf.length ≠ 0 ∨ result.num = none) :
    bn_cpy junk result ⟨some nbuf, nbuf.length⟩ = some ⟨some nbuf, nbuf.length⟩ := by
  have key : ∀ rbuf : List Nat, rbuf.length = nbuf.length →
      bn_cpy_loop nbuf (nbuf.length / WORD) rbuf 0 0 = some nbuf := by
    intro rbuf hrl
    have h8 : 8 * (0 + nbuf.length / 8) = nbuf.length := by omega
    obtain ⟨r, hrun, hlen, hget⟩ :=
      bn_cpy_loop_spec nbuf (nbuf.length / 8) rbuf 0 (by omega) (by omega)
    simp only [Nat.cast_zero] at hrun
    rw [show WORD = 8 from rfl, hrun]
    congr 1
    apply List.ext_getElem?
    intro i
    rw [hget i]
    by_cases h : i < nbuf.length
    · rw [if_pos (by omega)]
    · rw [if_neg (by omega), List.getElem?_eq_none (by omega), List.getElem?_eq_none (by omega)]
  cases hr : result.num with
  | none =>
    simp only [bn_cpy, hr, bn_init]
    rw [key _ (by simp)]
  | some rbuf =>
    have hn : nbuf.length ≠ 0 := by
      rcases h0 with h | h
      · exact h
      · rw [hr] at h; cases h
    obtain ⟨r, hre, hrl⟩ := length_realloc junk rbuf nbuf.length hn
    simp only [bn_cpy, hr, hre]
    rw [key _ hrl]

/-! ## `bn_ext` on a little-endian host -/

theorem bn_ext_le_eq (junk : Nat → Nat) (buf : List Nat) (n : Nat)
    (hal : buf.length % 8 = 0) (hn : n % 8 = 0) :
    bn_ext true junk ⟨some buf, buf.length⟩ n
      = some ⟨some (buf ++ List.replicate n 0), buf.length + n⟩ := by
  have h1 := bn_hcpy_le_eq (List.replicate (buf.length + n) 0) buf
  simp only [List.length_replicate] at h1
  have h2 : List.take (buf.length + n) buf = buf := List.take_of_length_le (by omega)
  have h3 : buf.length + n - min (buf.length + n) buf.length = n := by omega
  rw [h2, h3] at h1
  simp only [bn_ext, bn_init, h1]
  by_cases h0 : buf.length + n = 0
  · have hb : buf = [] := List.length_eq_zero.mp (by omega)
    have hn0 : n = 0 := by omega
    subst hb hn0
    exact bn_cpy_empty_source junk [] 0
  · have h4 := bn_cpy_aligned junk ⟨some buf, buf.length⟩ (buf ++ List.replicate n 0)
      (by simp only [List.length_append, List.length_replicate]; omega)
      (Or.inl (by simp only [List.length_append, List.length_replicate]; exact h0))
    simp only [List.length_append, List.length_replicate] at h4
    exact h4

/-! ## `bn_comp` computes the order of the big-endian values -/

theorem cmpCode_add_left (t x y : Nat) : cmpCode (t + x) (t + y) = cmpCode x y := by
  simp [cmpCode]

theorem valBE_foldl (l : List Nat) (acc : Nat) :
    l.foldl (fun a b => a * 256 + b) acc = acc * 256 ^ l.length + valBE l := by
  induction l generalizing acc with
  | nil => simp [valBE]
  | cons x l ih =>
    simp only [List.foldl_cons, valBE, List.length_cons, pow_succ]
    rw [ih (acc * 256 + x), ih (0 * 256 + x)]
    simp only [valBE]
    ring

theorem valBE_cons (x : Nat) (l : List Nat) :
    valBE (x :: l) = x * 256 ^ l.length + valBE l := by
  have h := valBE_foldl l (0 * 256 + x)
  simp only [Nat.zero_mul, Nat.zero_add] at h
  simpa [valBE] using h

theorem valBE_lt {l : List Nat} (h : isBytes l) : valBE l < 256 ^ l.length := by
  induction l with
  | nil => simp [valBE]
  | cons x l ih =>
    rw [isBytes_cons] at h
    have := ih h.2
    rw [valBE_cons, List.length_cons, pow_succ]
    have h2 : x * 256 ^ l.length ≤ 255 * 256 ^ l.length := Nat.mul_le_mul_right _ (by omega)
    omega

theorem bn_comp_skip2_eq (buf : List Nat) (p : Nat) :
    ∀ (s : Nat) (n : Int), bn_comp_skip2 buf p s n = bn_comp_skip1 buf p s n := by
  intro s
  induction s with
  | zero => intro n; rfl
  | succ s ih =>
    intro n
    simp only [bn_comp_skip2, bn_comp_skip1, ih]

theorem bn_comp_skip1_spec (buf : List Nat) (p : Nat) :
    ∀ (s n : Nat), n + s = buf.length →
      ∃ s1 n1, bn_comp_skip1 buf p s n = some (s1, ((n1 : Nat) : Int)) ∧
        ((s1 = min s p ∧ n1 + s1 = buf.length ∧ valBE (buf.drop n1) = valBE (buf.drop n))
          ∨ (p < s1 ∧ 256 ^ p ≤ valBE (buf.drop n))) := by
  intro s
  induction s with
  | zero =>
    intro n hn
    exact ⟨0, n, rfl, Or.inl ⟨by simp, by omega, rfl⟩⟩
  | succ s ih =>
    intro n hn
    by_cases hp : s + 1 > p
    · have hlt : n < buf.length := by omega
      have hd : buf.drop n = buf[n] :: buf.drop (n + 1) := List.drop_eq_getElem_cons hlt
      have hdl : (buf.drop (n + 1)).length = s := by rw [List.length_drop]; omega
      have e : ((n : Int) + 1) = ((n + 1 : Nat) : Int) := by push_cast; rfl
      by_cases hb : buf[n] = 0
      · obtain ⟨s1, n1, hrun, hspec⟩ := ih (n + 1) (by omega)
        refine ⟨s1, n1, ?_, ?_⟩
        · simp only [bn_comp_skip1, if_pos hp, readByte_natCast, List.getElem?_eq_getElem hlt,
            hb, if_true, e]
          exact hrun
        · have hv : valBE (buf.drop n) = valBE (buf.drop (n + 1)) := by
            rw [hd, valBE_cons, hb]; simp
          rcases hspec with ⟨h1, h2, h3⟩ | ⟨h1, h2⟩
          · exact Or.inl ⟨by omega, h2, by rw [hv]; exact h3⟩
          · exact Or.inr ⟨h1, by rw [hv]; exact h2⟩
      · refine ⟨s + 1, n + 1, ?_, Or.inr ⟨hp, ?_⟩⟩
        · simp only [bn_comp_skip1, if_pos hp, readByte_natCast, List.getElem?_eq_getElem hlt,
            hb, if_false, e]
        · rw [hd, valBE_cons, hdl]
          have h1 : 256 ^ p ≤ 256 ^ s := Nat.pow_le_pow_right (by norm_num) (by omega)
          have h2 : 1 * 256 ^ s ≤ buf[n] * 256 ^ s := Nat.mul_le_mul_right _ (by omega)
          omega
    · refine ⟨s + 1, n, ?_, Or.inl ⟨by omega, by omega, rfl⟩⟩
      simp only [bn_comp_skip1, if_neg hp]

theorem bn_comp_bytes_spec (buf1 buf2 : List Nat) (h1 : isBytes buf1) (h2 : isBytes buf2) :
    ∀ (s n1 n2 : Nat), n1 + s = buf1.length → n2 + s = buf2.length →
      bn_comp_bytes buf1 buf2 s n1 n2
        = some (cmpCode (valBE (buf1.drop n1)) (valBE (buf2.drop n2))) := by
  intro s
  induction s with
  | zero =>
    intro n1 n2 e1 e2
    rw [List.drop_of_length_le (by omega), List.drop_of_length_le (by omega)]
    rfl
  | succ s ih =>
    intro n1 n2 e1 e2
    have hl1 : n1 < buf1.length := by omega
    have hl2 : n2 < buf2.length := by omega
    have hd1 : buf1.drop n1 = buf1[n1] :: buf1.drop (n1 + 1) := List.drop_eq_getElem_cons hl1
    have hd2 : buf2.drop n2 = buf2[n2] :: buf2.drop (n2 + 1) := List.drop_eq_getElem_cons hl2
    have hdl1 : (buf1.drop (n1 + 1)).length = s := by rw [List.length_drop]; omega
    have hdl2 : (buf2.drop (n2 + 1)).length = s := by rw [List.length_drop]; omega
    have hv1 := valBE_lt (isBytes_drop h1 (n1 + 1))
    have hv2 := valBE_lt (isBytes_drop h2 (n2 + 1))
    rw [hdl1] at hv1
    rw [hdl2] at hv2
    have e1' : ((n1 : Int) + 1) = ((n1 + 1 : Nat) : Int) := by push_cast; rfl
    have e2' : ((n2 : Int) + 1) = ((n2 + 1 : Nat) : Int) := by push_cast; rfl
    simp only [bn_comp_bytes, readByte_natCast, List.getElem?_eq_getElem hl1,
      List.getElem?_eq_getElem hl2, e1', e2']
    rw [hd1, hd2, valBE_cons, valBE_cons, hdl1, hdl2]
    generalize buf1[n1] = a
    generalize buf2[n2] = b
    by_cases hab : a > b
    · rw [if_pos hab]
      have : (b + 1) * 256 ^ s ≤ a * 256 ^ s := Nat.mul_le_mul_right _ hab
      have e : (b + 1) * 256 ^ s = b * 256 ^ s + 256 ^ s := by ring
      simp only [cmpCode]
      rw [if_pos (by omega)]
    · rw [if_neg hab]
      by_cases hba : a < b
      · rw [if_pos hba]
        have : (a + 1) * 256 ^ s ≤ b * 256 ^ s := Nat.mul_le_mul_right _ hba
        have e : (a + 1) * 256 ^ s = a * 256 ^ s + 256 ^ s := by ring
        simp only [cmpCode]
        rw [if_neg (by omega), if_pos (by omega)]
      · rw [if_neg hba]
        have e : a = b := by omega
        subst e
        rw [ih (n1 + 1) (n2 + 1) (by omega) (by omega), cmpCode_add_left]

theorem bn_comp_eq_cmpCode (buf1 buf2 : List Nat) (h1 : isBytes buf1) (h2 : isBytes buf2) :
    bn_comp (some ⟨some buf1, buf1.length⟩) (some ⟨some buf2, buf2.length⟩)
      = some (cmpCode (valBE buf1) (valBE buf2)) := by
  obtain ⟨s1, n1, hrun1, hspec1⟩ := bn_comp_skip1_spec buf1 buf2.length buf1.length 0 (by omega)
  simp only [Nat.cast_zero, List.drop_zero] at hrun1 hspec1
  simp only [bn_comp, Option.getD_some, hrun1]
  rcases hspec1 with ⟨ha, hb, hc⟩ | ⟨ha, hb⟩
  · obtain ⟨s2, n2, hrun2, hspec2⟩ := bn_comp_skip1_spec buf2 s1 buf2.length 0 (by omega)
    simp only [Nat.cast_zero, List.drop_zero] at hrun2 hspec2
    rw [bn_comp_skip2_eq]
    simp only [hrun2]
    have hv1 := valBE_lt (isBytes_drop h1 n1)
    rw [List.length_drop] at hv1
    have hv1' : valBE buf1 < 256 ^ s1 := by
      rw [← hc]; have : buf1.length - n1 = s1 := by omega
      rw [this] at hv1; exact hv1
    rcases hspec2 with ⟨hd, he, hf⟩ | ⟨hd, he⟩
    · have hs : s1 = s2 := by omega
      subst hs
      rw [if_neg (by omega), if_neg (by omega),
        bn_comp_bytes_spec buf1 buf2 h1 h2 s1 n1 n2 hb he, hc, hf]
    · rw [if_neg (by omega), if_pos hd]
      simp only [cmpCode]
      rw [if_neg (by omega), if_pos (by omega)]
  · have hrun2 : bn_comp_skip2 buf2 s1 buf2.length 0 = some (buf2.length, 0) := by
      rw [bn_comp_skip2_eq]
      cases hl : buf2.length with
      | zero => rfl
      | succ m =>
        simp only [bn_comp_skip1]
        rw [if_neg (by omega)]
    simp only [hrun2]
    rw [if_pos ha]
    have hv2 := valBE_lt h2
    simp only [cmpCode]
    rw [if_pos (by omega)]

theorem bn_comp_initialized {a b : bn_t} (ha : initialized a) (hb : initialized b) :
    bn_comp (some a) (some b) = some (cmpCode (valBE (bytes a)) (valBE (bytes b))) := by
  have ea := initialized_eta ha
  have eb := initialized_eta hb
  have h := bn_comp_eq_cmpCode (bytes a) (bytes b) ha.2.2 hb.2.2
  rw [← ea, ← eb] at h
  exact h

theorem valBE_replicate_zero (n : Nat) : valBE (List.replicate n 0) = 0 := by
  induction n with
  | zero => rfl
  | succ n ih => rw [List.replicate_succ, valBE_cons, ih]; simp

/-! ## The half-word adder -/

theorem low_eq : ULONG_MAX >>> (WORD * 8 / 2) = 2 ^ 32 - 1 := by decide

theorem high_eq : (ULONG_MAX <<< (WORD * 8 / 2)) % TWO64 = (2 ^ 32 - 1) <<< 32 := by decide

theorem and_low (x : Nat) : x &&& (2 ^ 32 - 1) = x % 2 ^ 32 :=
  Nat.and_pow_two_sub_one_eq_mod x 32

theorem and_high_shift (t : Nat) : (t &&& ((2 ^ 32 - 1) <<< 32)) >>> 32 = t / 2 ^ 32 % 2 ^ 32 := by
  apply Nat.eq_of_testBit_eq
  intro i
  rw [Nat.testBit_shiftRight, Nat.testBit_and, Nat.testBit_shiftLeft,
    Nat.testBit_two_pow_sub_one, Nat.testBit_mod_two_pow, ← Nat.shiftRight_eq_div_pow,
    Nat.testBit_shiftRight]
  have : 32 + i - 32 = i := by omega
  rw [this]
  by_cases h : i < 32 <;> simp [h]

theorem xor_and_high {t : Nat} (ht : t < 2 ^ 64) :
    t ^^^ (t &&& ((2 ^ 32 - 1) <<< 32)) = t % 2 ^ 32 := by
  apply Nat.eq_of_testBit_eq
  intro i
  rw [Nat.testBit_xor, Nat.testBit_and, Nat.testBit_shiftLeft,
    Nat.testBit_two_pow_sub_one, Nat.testBit_mod_two_pow]
  by_cases h : i < 32
  · have h' : ¬ i ≥ 32 := by omega
    simp [h, h']
  · have h' : i ≥ 32 := by omega
    by_cases h2 : i - 32 < 32
    · simp [h, h', h2]
    · have h3 : t.testBit i = false :=
        Nat.testBit_lt_two_pow (lt_of_lt_of_le ht (Nat.pow_le_pow_right (by norm_num) (by omega)))
      simp [h, h3]

theorem xor_and_low (x : Nat) : x ^^^ (x &&& (2 ^ 32 - 1)) = 2 ^ 32 * (x / 2 ^ 32) := by
  apply Nat.eq_of_testBit_eq
  intro i
  have e := Nat.testBit_mul_pow_two_add (x / 2 ^ 32) (show 0 < 2 ^ 32 by norm_num) i
  rw [Nat.add_zero] at e
  rw [e, Nat.testBit_xor, Nat.testBit_and, Nat.testBit_two_pow_sub_one,
    ← Nat.shiftRight_eq_div_pow, Nat.testBit_shiftRight]
  by_cases h : i < 32
  · simp [h]
  · have : 32 + (i - 32) = i := by omega
    simp [h, this]

theorem or_low (a : Nat) {b : Nat} (hb : b < 2 ^ 32) :
    2 ^ 32 * a ||| b = 2 ^ 32 * a + b :=
  (Nat.mul_add_lt_is_or hb a).symm

theorem or_high {b : Nat} (hb : b < 2 ^ 32) (a : Nat) :
    b ||| 2 ^ 32 * a = 2 ^ 32 * a + b := by
  rw [Nat.lor_comm]
  exact or_low a hb

theorem shl_mod (t : Nat) : (t <<< 32) % 2 ^ 64 = 2 ^ 32 * (t % 2 ^ 32) := by
  rw [Nat.shiftLeft_eq, Nat.mul_comm, show (2 : Nat) ^ 64 = 2 ^ 32 * 2 ^ 32 by norm_num,
    Nat.mul_mod_mul_left]

theorem shift_eq : WORD * 8 / 2 = 32 := by decide

theorem low_eq32 : ULONG_MAX >>> 32 = 2 ^ 32 - 1 := by decide

theorem high_eq32 : (ULONG_MAX <<< 32) % TWO64 = (2 ^ 32 - 1) <<< 32 := by decide

theorem xor_mod_low (x : Nat) : x ^^^ x % 2 ^ 32 = 2 ^ 32 * (x / 2 ^ 32) := by
  rw [← and_low, xor_and_low]

theorem sum_word_spec (has2 : Bool) (x1 x2 c : Nat)
    (h1 : x1 < 2 ^ 64) (h2 : x2 < 2 ^ 64) (hc : c ≤ 1) :
    sum_word has2 x1 x2 c
      = ((x1 + (if has2 then x2 else 0) + c) % 2 ^ 64,
         (x1 + (if has2 then x2 else 0) + c) / 2 ^ 64) := by
  simp only [sum_word, shift_eq, low_eq32, high_eq32]
  simp only [and_low, and_high_shift, xor_mod_low, TWO64]
  generalize hy : (if has2 = true then x2 % 2 ^ 32 else 0) = ylo
  generalize hz : (if has2 = true then x2 / 2 ^ 32 % 2 ^ 32 else 0) = yhi
  generalize hw : (if has2 = true then x2 else 0) = y
  have hylo : ylo = y % 2 ^ 32 := by
    cases has2 <;> simp at hy hw <;> omega
  have hyhi : yhi = y / 2 ^ 32 := by
    cases has2 <;> simp at hz hw <;> omega
  have hylt : y < 2 ^ 64 := by
    cases has2 <;> simp at hw <;> omega
  generalize ht : (ylo + (x1 % 2 ^ 32 + c)) % 2 ^ 64 = t
  have htlt : t < 2 ^ 64 := by omega
  rw [xor_and_high htlt, or_low _ (Nat.mod_lt _ (by norm_num))]
  generalize hb : 2 ^ 32 * (x1 / 2 ^ 32) + t % 2 ^ 32 = b
  have hblt : b < 2 ^ 64 := by omega
  rw [xor_and_high hblt, shl_mod, or_high (Nat.mod_lt _ (by norm_num))]
  have e1 : t = ylo + (x1 % 2 ^ 32 + c) := by omega
  have e2 : b / 2 ^ 32 % 2 ^ 32 = x1 / 2 ^ 32 := by omega
  have e3 : b % 2 ^ 32 = t % 2 ^ 32 := by omega
  have e4 : t / 2 ^ 32 % 2 ^ 32 = t / 2 ^ 32 := by omega
  rw [e2, e3, e4]
  generalize hT : yhi + (x1 / 2 ^ 32 + t / 2 ^ 32) = T
  have e5 : T % 2 ^ 64 = T := by omega
  rw [e5]
  have e6 : x1 + y + c = 2 ^ 32 * T + t % 2 ^ 32 := by omega
  have e7 : T / 2 ^ 32 % 2 ^ 32 = T / 2 ^ 32 := by omega
  rw [e6, e7]
  refine Prod.ext ?_ ?_
  · simp only
    omega
  · simp only
    omega

/-! ## Words of a little-endian buffer -/

theorem length_bytesLE (k w : Nat) : (bytesLE k w).length = k := by
  induction k generalizing w with
  | zero => rfl
  | succ k ih => simp [bytesLE, ih]

theorem valLE_bytesLE (k w : Nat) : valLE (bytesLE k w) = w % 256 ^ k := by
  induction k generalizing w with
  | zero => simp [bytesLE, valLE, Nat.mod_one]
  | succ k ih =>
    simp only [bytesLE, valLE, ih]
    rw [pow_succ, Nat.mul_comm (256 ^ k) 256, Nat.mod_mul]

theorem isBytes_bytesLE (k w : Nat) : isBytes (bytesLE k w) := by
  induction k generalizing w with
  | zero => intro b hb; simp [bytesLE] at hb
  | succ k ih =>
    simp only [bytesLE]
    exact isBytes_cons.2 ⟨Nat.mod_lt _ (by norm_num), ih _⟩

theorem valLE_drop {a : List Nat} (h : isBytes a) (k : Nat) :
    valLE (a.drop k) = valLE a / 256 ^ k := by
  by_cases hk : k ≤ a.length
  · have e := valLE_append (a.take k) (a.drop k)
    rw [List.take_append_drop, List.length_take, Nat.min_eq_left hk] at e
    have hlt := valLE_lt (isBytes_take h k)
    rw [List.length_take, Nat.min_eq_left hk] at hlt
    rw [e, Nat.add_mul_div_left _ _ (by positivity), Nat.div_eq_of_lt hlt, Nat.zero_add]
  · have hlt := valLE_lt h
    have hle : 256 ^ a.length ≤ 256 ^ k := Nat.pow_le_pow_right (by norm_num) (by omega)
    rw [List.drop_of_length_le (by omega), Nat.div_eq_of_lt (by omega)]
    rfl

theorem pow_word : (256 : Nat) ^ 8 = 2 ^ 64 := by norm_num

theorem readWord_le {buf : List Nat} (h : isBytes buf) (k : Nat) (hk : 8 * k + 8 ≤ buf.length) :
    readWord true buf k = some (valLE buf / 256 ^ (8 * k) % 2 ^ 64) := by
  simp only [readWord, load_natCast]
  rw [if_pos (by simp only [WORD]; omega)]
  simp only [Option.map_some', decodeWord, if_true, WORD]
  rw [valLE_take (isBytes_drop h _), valLE_drop h, pow_word]

theorem writeWord_le {buf : List Nat} (h : isBytes buf) (k : Nat) (hk : 8 * k + 8 ≤ buf.length)
    (w : Nat) (hw : w < 2 ^ 64) :
    ∃ buf1, writeWord true buf k w = some buf1 ∧ buf1.length = buf.length ∧ isBytes buf1
      ∧ valLE buf1 + (valLE buf / 256 ^ (8 * k) % 2 ^ 64) * 256 ^ (8 * k)
          = valLE buf + w * 256 ^ (8 * k) := by
  have hl : (bytesLE 8 w).length = 8 := length_bytesLE 8 w
  refine ⟨buf.take (8 * k) ++ bytesLE 8 w ++ buf.drop (8 * k + 8), ?_, ?_, ?_, ?_⟩
  · simp only [writeWord, encodeWord, if_true]
    rw [store_natCast]
    simp only [WORD, hl]
    rw [if_pos hk]
  · have := length_splice buf (bytesLE 8 w) (8 * k) (by rw [hl]; exact hk)
    rw [hl] at this
    exact this
  · exact isBytes_append.2 ⟨isBytes_append.2 ⟨isBytes_take h _, isBytes_bytesLE _ _⟩,
      isBytes_drop h _⟩
  · have e1 : valLE buf = valLE (buf.take (8 * k))
        + 256 ^ (8 * k) * (valLE buf / 256 ^ (8 * k)) := by
      have e := valLE_append (buf.take (8 * k)) (buf.drop (8 * k))
      rw [List.take_append_drop, List.length_take, Nat.min_eq_left (by omega), valLE_drop h] at e
      exact e
    have e2 : valLE (buf.drop (8 * k + 8)) = valLE buf / 256 ^ (8 * k) / 2 ^ 64 := by
      rw [valLE_drop h, pow_add, pow_word, Nat.div_div_eq_div_mul]
    rw [List.append_assoc, valLE_append, valLE_append, List.length_take,
      Nat.min_eq_left (by omega), hl, valLE_bytesLE, pow_word, Nat.mod_eq_of_lt hw, e2]
    generalize valLE (buf.take (8 * k)) = p at e1 ⊢
    generalize valLE buf / 256 ^ (8 * k) = q at e1 ⊢
    rw [e1]
    have e3 := Nat.div_add_mod q (2 ^ 64)
    generalize q / 2 ^ 64 = q1 at e3 ⊢
    generalize q % 2 ^ 64 = q0 at e3 ⊢
    subst e3
    ring

/-! ## The loop of `bn_sum` on a little-endian host -/

theorem bn_sum_loop_exit (le : Bool) (junk : Nat → Nat) (moved : Bool) (buf2 : List Nat)
    (fuel : Nat) (number1 : bn_t) (stale : Bool) (size1 size2 : Nat) (num1 num2 : Int)
    (carry : Nat) (h : ¬ (size1 > 0 ∧ (size2 > 0 ∨ carry ≠ 0))) :
    bn_sum_loop le junk moved buf2 fuel number1 stale size1 size2 num1 num2 carry
      = Outcome.done number1 := by
  cases fuel <;> simp only [bn_sum_loop, if_neg h]

theorem valLE_div_eq_zero {a : List Nat} (h : isBytes a) {k : Nat} (hk : a.length ≤ k) :
    valLE a / 256 ^ k = 0 := by
  have hlt := valLE_lt h
  have hle : 256 ^ a.length ≤ 256 ^ k := Nat.pow_le_pow_right (by norm_num) hk
  exact Nat.div_eq_of_lt (by omega)

theorem round_arith (vB1 vB x y c r c1 P A : Nat) (hval1 : vB1 + x * P = vB + r * P)
    (hdm : 2 ^ 64 * c1 + r = x + y + c) :
    vB1 + (c1 + A) * (2 ^ 64 * P) = vB + (c + (2 ^ 64 * A + y)) * P := by
  zify at hval1 hdm ⊢
  linear_combination hval1 + (P : Int) * hdm

/-- The round that follows the extension by one word: the fresh word absorbs
the carry and the loop is left. -/
theorem bn_sum_loop_after_ext (junk : Nat → Nat) (buf2 : List Nat) (f : Nat) (B1 : List Nat)
    (m : Nat) (hB : isBytes B1) (hl : B1.length = 8 * m) (num2 : Int) :
    bn_sum_loop true junk false buf2 (f + 1) ⟨some (B1 ++ List.replicate 8 0), B1.length + 8⟩ false
        (0 + WORD) 0 m num2 1
      = Outcome.done ⟨some (B1 ++ bytesLE 8 1), B1.length + 8⟩ := by
  have hB2 : isBytes (B1 ++ List.replicate 8 0) :=
    isBytes_append.2 ⟨hB, isBytes_replicate_zero 8⟩
  have hlen : (B1 ++ List.replicate 8 0).length = 8 * m + 8 := by
    rw [List.length_append, List.length_replicate, hl]
  have hr := readWord_le hB2 m (by omega)
  have hv : valLE (B1 ++ List.replicate 8 0) / 256 ^ (8 * m) % 2 ^ 64 = 0 := by
    rw [valLE_append, valLE_replicate_zero, Nat.mul_zero, Nat.add_zero,
      valLE_div_eq_zero hB (by omega), Nat.zero_mod]
  rw [hv] at hr
  have hw : writeWord true (B1 ++ List.replicate 8 0) m 1 = some (B1 ++ bytesLE 8 1) := by
    simp only [writeWord, encodeWord, if_true]
    rw [store_natCast]
    simp only [WORD, length_bytesLE]
    rw [if_pos (by omega), ← hl, List.take_left', List.drop_of_length_le (by omega),
      List.append_nil]
    rfl
  have hs : sum_word (decide ((0 : Nat) > 0)) 0 0 1 = (1, 0) := by decide
  have hc1 : 0 + WORD > 0 ∧ ((0 : Nat) > 0 ∨ (1 : Nat) ≠ 0) := by decide
  have hc2 : ¬ (0 + WORD - 1 = 0 ∧ ((1, 0) : Nat × Nat).2 ≠ 0) := by decide
  have h0 : (if (0 : Nat) > 0 then readWord true buf2 num2 else some 0) = some 0 :=
    if_neg (by decide)
  rw [bn_sum_loop, if_pos hc1]
  simp only [Option.getD_some, h0, hr, hs, hw, Bool.false_eq_true, if_false]
  rw [if_neg hc2]
  exact bn_sum_loop_exit _ _ _ _ _ _ _ _ _ _ _ _ (by simp)

/-- The round that follows an extension which moved the block: `num1` still
points into the released block and the round is a memory fault. -/
theorem bn_sum_loop_stale (le : Bool) (junk : Nat → Nat) (moved : Bool) (buf2 : List Nat)
    (f : Nat) (number1 : bn_t) (size1 : Nat) (num1 num2 : Int) (carry : Nat)
    (h1 : size1 > 0) (hc : carry ≠ 0) :
    bn_sum_loop le junk moved buf2 (f + 1) number1 true size1 0 num1 num2 carry
      = Outcome.fault := by
  rw [bn_sum_loop, if_pos ⟨h1, Or.inr hc⟩]
  simp

set_option maxHeartbeats 1000000 in
/-- The loop of `bn_sum` on a little-endian host, from round `k` on: `B1` is the
buffer holding the sum.  The loop ends with `B1`, unless the sum needs one word
more than the destination has and the reallocation moves the block: then the
round after the extension is a memory fault. -/
theorem bn_sum_loop_le (junk : Nat → Nat) (moved : Bool) (buf2 : List Nat) (n2 : Nat)
    (h2 : isBytes buf2) (hl2 : buf2.length = 8 * n2) :
    ∀ (d k fuel : Nat) (B : List Nat) (c : Nat),
      isBytes B → B.length = 8 * (k + d) → c ≤ 1 → n2 ≤ k + d → (d = 0 → c = 0) →
      d + 1 ≤ fuel →
      ∃ B1, bn_sum_loop true junk moved buf2 fuel ⟨some B, 8 * (k + d)⟩ false d (n2 - k) k
              ((min k n2 : Nat) : Int) c
            = (if moved = true ∧ B1.length ≠ B.length then Outcome.fault
               else Outcome.done ⟨some B1, B1.length⟩)
        ∧ isBytes B1
        ∧ valLE B1 = valLE B + (c + valLE buf2 / 256 ^ (8 * k)) * 256 ^ (8 * k)
        ∧ (B1.length = B.length
            ∨ (B1.length = B.length + 8 ∧ readWord true B1 ((k + d : Nat) : Int) = some 1)) := by
  intro d
  induction d with
  | zero =>
    intro k fuel B c hB hl hc hn hd _
    refine ⟨B, ?_, hB, ?_, Or.inl rfl⟩
    · rw [bn_sum_loop_exit _ _ _ _ _ _ _ _ _ _ _ _ (by simp), hl, if_neg (by simp)]
    · rw [hd rfl, valLE_div_eq_zero h2 (by omega)]
      simp
  | succ d ih =>
    intro k fuel B c hB hl hc hn _ hf
    by_cases hcond : n2 - k > 0 ∨ c ≠ 0
    · obtain ⟨f, rfl⟩ : ∃ f, fuel = f + 1 := ⟨fuel - 1, by omega⟩
      -- the addend word of this round
      have hx2 : (if n2 - k > 0 then readWord true buf2 ((min k n2 : Nat) : Int) else some 0)
          = some (valLE buf2 / 256 ^ (8 * k) % 2 ^ 64) := by
        by_cases hs : n2 - k > 0
        · rw [if_pos hs, Nat.min_eq_left (by omega), readWord_le h2 k (by omega)]
        · rw [if_neg hs, valLE_div_eq_zero h2 (by omega), Nat.zero_mod]
      have hx1 := readWord_le hB k (by omega)
      generalize hy : valLE buf2 / 256 ^ (8 * k) % 2 ^ 64 = y at hx2
      generalize hx : valLE B / 256 ^ (8 * k) % 2 ^ 64 = x at hx1
      have hylt : y < 2 ^ 64 := by omega
      have hxlt : x < 2 ^ 64 := by omega
      have hy0 : (if decide (n2 - k > 0) = true then y else 0) = y := by
        by_cases hs : n2 - k > 0
        · simp [hs]
        · have : y = 0 := by rw [← hy, valLE_div_eq_zero h2 (by omega), Nat.zero_mod]
          simp [this]
      have hsw := sum_word_spec (decide (n2 - k > 0)) x y c hxlt hylt hc
      rw [hy0] at hsw
      obtain ⟨B1, hw, hlen1, hB1, hval1⟩ :=
        writeWord_le hB k (by omega) ((x + y + c) % 2 ^ 64) (Nat.mod_lt _ (by norm_num))
      rw [hx] at hval1
      have hstep : bn_sum_loop true junk moved buf2 (f + 1) ⟨some B, 8 * (k + (d + 1))⟩ false
            (d + 1) (n2 - k) k ((min k n2 : Nat) : Int) c
          = if d = 0 ∧ (x + y + c) / 2 ^ 64 ≠ 0 then
              match bn_ext true junk ⟨some B1, 8 * (k + (d + 1))⟩ WORD with
              | none => Outcome.fault
              | some number1b =>
                bn_sum_loop true junk moved buf2 f number1b moved (d + WORD) (n2 - (k + 1))
                  ((k + 1 : Nat) : Int) ((min (k + 1) n2 : Nat) : Int) ((x + y + c) / 2 ^ 64)
            else
              bn_sum_loop true junk moved buf2 f ⟨some B1, 8 * (k + (d + 1))⟩ false d (n2 - (k + 1))
                ((k + 1 : Nat) : Int) ((min (k + 1) n2 : Nat) : Int) ((x + y + c) / 2 ^ 64) := by
        rw [bn_sum_loop, if_pos ⟨by omega, hcond⟩]
        simp only [Option.getD_some, hx2, hx1, hsw, hw, if_true, Nat.add_sub_cancel,
          Bool.false_eq_true, if_false]
        have e1 : ((k : Int) + 1) = ((k + 1 : Nat) : Int) := by push_cast; rfl
        have e2 : (if n2 - k > 0 then ((min k n2 : Nat) : Int) + 1 else ((min k n2 : Nat) : Int))
            = ((min (k + 1) n2 : Nat) : Int) := by
          by_cases hs : n2 - k > 0
          · rw [if_pos hs, Nat.min_eq_left (by omega), Nat.min_eq_left (by omega)]
            push_cast; rfl
          · rw [if_neg hs, Nat.min_eq_right (by omega), Nat.min_eq_right (by omega)]
        have e3 : (if n2 - k > 0 then n2 - k - 1 else n2 - k) = n2 - (k + 1) := by
          by_cases hs : n2 - k > 0
          · rw [if_pos hs]; omega
          · rw [if_neg hs]; omega
        rw [e1, e2, e3]
      rw [hstep]
      -- arithmetic of the round
      have hdm := Nat.div_add_mod (x + y + c) (2 ^ 64)
      have hP : (256 : Nat) ^ (8 * (k + 1)) = 2 ^ 64 * 256 ^ (8 * k) := by
        rw [Nat.mul_add, pow_add, Nat.mul_one, pow_word, Nat.mul_comm]
      have hq : valLE buf2 / 256 ^ (8 * (k + 1)) = valLE buf2 / 256 ^ (8 * k) / 2 ^ 64 := by
        rw [hP, Nat.mul_comm, Nat.div_div_eq_div_mul]
      have hq2 := Nat.div_add_mod (valLE buf2 / 256 ^ (8 * k)) (2 ^ 64)
      rw [hy] at hq2
      by_cases hext : d = 0 ∧ (x + y + c) / 2 ^ 64 ≠ 0
      · rw [if_pos hext]
        obtain ⟨hd0, hc1⟩ := hext
        subst hd0
        simp only [Nat.zero_add] at hl hn hf ⊢
        have hc1' : (x + y + c) / 2 ^ 64 = 1 := by omega
        have hdm' : 2 ^ 64 * 1 + (x + y + c) % 2 ^ 64 = x + y + c := by rw [← hc1']; exact hdm
        have hle := bn_ext_le_eq junk B1 WORD (by omega) (by decide)
        have hsz : 8 * (k + 1) = B1.length := by omega
        rw [hsz, hle]
        simp only
        obtain ⟨f1, rfl⟩ : ∃ f1, f = f1 + 1 := ⟨f - 1, by omega⟩
        have hrun := bn_sum_loop_after_ext junk buf2 f1 B1 (k + 1) hB1 (by omega)
          ((min (k + 1) n2 : Nat) : Int)
        have hsz2 : n2 - (k + 1) = 0 := by omega
        rw [hc1', hsz2]
        simp only [WORD] at hrun ⊢
        have hlenF : (B1 ++ bytesLE 8 1).length = B1.length + 8 := by
          rw [List.length_append, length_bytesLE]
        refine ⟨B1 ++ bytesLE 8 1, ?_, ?_, ?_, Or.inr ⟨by rw [hlenF, hlen1], ?_⟩⟩
        · cases moved
          · rw [hrun, if_neg (by simp), hlenF]
          · rw [if_pos ⟨rfl, by rw [hlenF, hlen1]; omega⟩]
            exact bn_sum_loop_stale _ _ _ _ _ _ _ _ _ _ (by norm_num) (by norm_num)
        · exact isBytes_append.2 ⟨hB1, isBytes_bytesLE _ _⟩
        · rw [valLE_append, valLE_bytesLE, hlen1, hl, hP]
          have hz : valLE buf2 / 256 ^ (8 * k) / 2 ^ 64 = 0 := by
            rw [← hq]; exact valLE_div_eq_zero h2 (by omega)
          rw [hz] at hq2
          have e5 : (1 : Nat) % 256 ^ 8 = 1 := by norm_num
          have hfin := round_arith (valLE B1) (valLE B) x y c _ 1 (256 ^ (8 * k)) 0 hval1 hdm'
          rw [hq2] at hfin
          have e6 : 2 ^ 64 * 256 ^ (8 * k) * 1 = (1 + 0) * (2 ^ 64 * 256 ^ (8 * k)) := by ring
          rw [e5, e6]
          exact hfin
        · have hBF : isBytes (B1 ++ bytesLE 8 1) :=
            isBytes_append.2 ⟨hB1, isBytes_bytesLE _ _⟩
          rw [readWord_le hBF (k + 1) (by rw [hlenF]; omega), valLE_append,
            valLE_bytesLE, hlen1, hl]
          have e5 : (1 : Nat) % 256 ^ 8 = 1 := by norm_num
          have hlt := valLE_lt hB1
          rw [hlen1, hl] at hlt
          rw [e5, Nat.mul_one, Nat.add_div_right _ (by positivity), Nat.div_eq_of_lt hlt]
          norm_num
      · rw [if_neg hext]
        obtain ⟨B2, hrun, hB2, hval2, hlen2⟩ := ih (k + 1) f B1 ((x + y + c) / 2 ^ 64) hB1
          (by omega) (by omega) (by omega) (by intro h0; by_contra h1; exact hext ⟨h0, h1⟩)
          (by omega)
        have hkd : k + 1 + d = k + (d + 1) := by omega
        rw [hkd] at hrun hlen2
        rw [hlen1] at hrun
        refine ⟨B2, hrun, hB2, ?_, ?_⟩
        · have hfin := round_arith (valLE B1) (valLE B) x y c _ _ (256 ^ (8 * k))
            (valLE buf2 / 256 ^ (8 * k) / 2 ^ 64) hval1 hdm
          rw [hq2] at hfin
          rw [hval2, hq, hP]
          exact hfin
        · rw [hlen1] at hlen2
          exact hlen2
    · refine ⟨B, ?_, hB, ?_, Or.inl rfl⟩
      · rw [bn_sum_loop_exit _ _ _ _ _ _ _ _ _ _ _ _ (by tauto), hl, if_neg (by simp)]
      · have hc0 : c = 0 := by
          by_contra h; exact hcond (Or.inr h)
        rw [hc0, valLE_div_eq_zero h2 (by omega)]
        simp

theorem valWords_wordsAux (n : Nat) :
    ∀ buf : List Nat, 8 * n ≤ buf.length →
      valWords (wordsAux true n buf) = valLE (buf.take (8 * n)) := by
  induction n with
  | zero => intro buf _; rfl
  | succ n ih =>
    intro buf h
    have e : buf.take (8 * (n + 1)) = buf.take 8 ++ (buf.drop 8).take (8 * n) := by
      rw [show 8 * (n + 1) = 8 + 8 * n by ring, List.take_add]
    simp only [wordsAux, valWords, decodeWord, if_true, WORD]
    rw [ih (buf.drop 8) (by rw [List.length_drop]; omega), e, valLE_append, List.length_take,
      Nat.min_eq_left (by omega), pow_word]

theorem valWords_words {buf : List Nat} (h : buf.length % 8 = 0) :
    valWords (words true buf) = valLE buf := by
  have e : 8 * (buf.length / 8) = buf.length := by omega
  rw [words, show WORD = 8 from rfl, valWords_wordsAux _ buf (by omega), e, List.take_length]

/-- `bn_sum` on a little-endian host: `r` is the buffer holding the sum.  The
call ends with `r`, unless `r` is one word longer than the longer operand and
the reallocation inside the loop moves the block: then the call is a memory
fault. -/
theorem bn_sum_le (junk : Nat → Nat) (moved : Bool) (b1 b2 : List Nat) (m1 n2 : Nat)
    (hb1 : isBytes b1) (hl1 : b1.length = 8 * m1) (hb2 : isBytes b2) (hl2 : b2.length = 8 * n2)
    (fuel : Nat) (hf : max m1 n2 + 1 ≤ fuel) :
    ∃ r, bn_sum true junk moved fuel ⟨some b1, b1.length⟩ ⟨some b2, b2.length⟩
          = (if moved = true ∧ r.length ≠ 8 * max m1 n2 then Outcome.fault
             else Outcome.done (⟨some r, r.length⟩, ⟨some b2, b2.length⟩))
      ∧ isBytes r
      ∧ valLE r = valLE b1 + valLE b2
      ∧ (r.length = 8 * max m1 n2
          ∨ (r.length = 8 * max m1 n2 + 8
              ∧ readWord true r ((max m1 n2 : Nat) : Int) = some 1)) := by
  -- the destination after the initial extension
  obtain ⟨B, hext, hB, hlB, hvB⟩ : ∃ B,
      (if b1.length < b2.length then
          bn_ext true junk ⟨some b1, b1.length⟩ (b2.length - b1.length)
        else some ⟨some b1, b1.length⟩) = some ⟨some B, 8 * (0 + max m1 n2)⟩
      ∧ isBytes B ∧ B.length = 8 * (0 + max m1 n2) ∧ valLE B = valLE b1 := by
    by_cases hlt : b1.length < b2.length
    · refine ⟨b1 ++ List.replicate (b2.length - b1.length) 0, ?_,
        isBytes_append.2 ⟨hb1, isBytes_replicate_zero _⟩, ?_, ?_⟩
      · rw [if_pos hlt, bn_ext_le_eq junk b1 _ (by omega) (by omega)]
        congr 2
        omega
      · rw [List.length_append, List.length_replicate]; omega
      · rw [valLE_append, valLE_replicate_zero, Nat.mul_zero, Nat.add_zero]
    · refine ⟨b1, ?_, hb1, by omega, rfl⟩
      rw [if_neg hlt]
      congr 2
      omega
  obtain ⟨r, hrun, hr, hval, hlen⟩ := bn_sum_loop_le junk moved b2 n2 hb2 hl2 (max m1 n2) 0
    fuel B 0 hB hlB (by omega) (by omega) (fun _ => rfl) (by omega)
  refine ⟨r, ?_, hr, ?_, ?_⟩
  · simp only [bn_sum, hext]
    have e1 : 8 * (0 + max m1 n2) / WORD = max m1 n2 := by simp [WORD]
    have e2 : b2.length / WORD = n2 - 0 := by simp [WORD, hl2]
    simp only [e1, e2, if_true]
    simp only [Nat.zero_min, Nat.cast_zero] at hrun
    rw [hrun, hlB]
    simp only [Nat.zero_add]
    by_cases hmv : moved = true ∧ r.length ≠ 8 * max m1 n2
    · rw [if_pos hmv, if_pos hmv]
    · rw [if_neg hmv, if_neg hmv]
  · rw [hval, hvB]
    simp
  · simp only [Nat.zero_add] at hlen hlB
    rw [hlB] at hlen
    exact hlen

/-! ## Claims on the copies, the extension and the comparison -/

/-- C6: on a little-endian host `bn_hcpy` (copy_preserving_size) keeps the size
of an initialized `dst`, sets byte `i` of `dst` to byte `i` of `src` for
`i < min dst.size src.size` and to 0 for every other `i < dst.size`; the value of
`dst` (byte 0 least significant) becomes the value of `src` modulo
`256 ^ dst.size`. -/
theorem bn_hcpy_little_endian (dst src : bn_t) (hd : initialized dst) (hs : initialized src) :
    ∃ r, bn_hcpy true dst src = some r ∧ r.size = dst.size ∧ initialized r
      ∧ (∀ i, i < dst.size →
          (bytes r)[i]? = if i < min dst.size src.size then (bytes src)[i]? else some 0)
      ∧ valLE (bytes r) = valLE (bytes src) % 256 ^ dst.size := by
  have ed := initialized_eta hd
  have es := initialized_eta hs
  have hdl := hd.2.1
  have hsl := hs.2.1
  have hsb := hs.2.2
  have h := bn_hcpy_le_eq (bytes dst) (bytes src)
  rw [← ed, ← es, hdl, hsl] at h
  have hsl' : (src.num.getD []).length = src.size := hsl
  refine ⟨_, h, rfl, ⟨rfl, ?_, ?_⟩, ?_, ?_⟩
  · simp only [bytes, Option.getD_some, List.length_append, List.length_take,
      List.length_replicate]
    omega
  · simp only [bytes, Option.getD_some]
    exact isBytes_append.2 ⟨isBytes_take hsb _, isBytes_replicate_zero _⟩
  · intro i hi
    simp only [bytes, Option.getD_some]
    rw [List.getElem?_append, List.length_take, List.getElem?_take, List.getElem?_replicate]
    rw [hsl']
    by_cases h1 : i < min dst.size src.size
    · rw [if_pos h1, if_pos h1, if_pos (by omega)]
    · rw [if_neg h1, if_neg h1, if_pos (by omega)]
  · simp only [bytes, Option.getD_some]
    rw [valLE_append, valLE_replicate_zero, Nat.mul_zero, Nat.add_zero]
    exact valLE_take hsb _

/-- Witness for C6: a 3-byte destination receiving a 2-byte source. -/
theorem bn_hcpy_little_endian_witness :
    initialized ⟨some [9, 9, 9], 3⟩ ∧ initialized ⟨some [1, 2], 2⟩ ∧
    ∃ r, bn_hcpy true ⟨some [9, 9, 9], 3⟩ ⟨some [1, 2], 2⟩ = some r
      ∧ r.size = (⟨some [9, 9, 9], 3⟩ : bn_t).size ∧ initialized r
      ∧ (∀ i, i < (⟨some [9, 9, 9], 3⟩ : bn_t).size →
          (bytes r)[i]? = if i < min (⟨some [9, 9, 9], 3⟩ : bn_t).size
              (⟨some [1, 2], 2⟩ : bn_t).size
            then (bytes ⟨some [1, 2], 2⟩)[i]? else some 0)
      ∧ valLE (bytes r) = valLE (bytes ⟨some [1, 2], 2⟩)
          % 256 ^ (⟨some [9, 9, 9], 3⟩ : bn_t).size :=
  ⟨by decide, by decide,
    bn_hcpy_little_endian ⟨some [9, 9, 9], 3⟩ ⟨some [1, 2], 2⟩ (by decide) (by decide)⟩

/-- C3, evaluated on a little-endian host: extending the one-word magnitude 1
by one word gives a magnitude that `bn_comp` reports as greater than the
original (result 2), not as equal. -/
theorem bn_ext_bn_comp_little_endian (junk : Nat → Nat) :
    bn_ext true junk ⟨some [1, 0, 0, 0, 0, 0, 0, 0], 8⟩ 8
        = some ⟨some [1, 0, 0, 0, 0, 0, 0, 0, 0, 0, 0, 0, 0, 0, 0, 0], 16⟩
    ∧ bn_comp (some ⟨some [1, 0, 0, 0, 0, 0, 0, 0], 8⟩)
        (some ⟨some [1, 0, 0, 0, 0, 0, 0, 0, 0, 0, 0, 0, 0, 0, 0, 0], 16⟩) = some 2 :=
  ⟨bn_ext_le_eq junk [1, 0, 0, 0, 0, 0, 0, 0] 8 (by decide) (by decide), by decide⟩

/-- On a big-endian host the same extension puts the zero bytes in front, and
`bn_comp` reports the extended magnitude as equal to the original. -/
theorem bn_ext_bn_comp_big_endian (junk : Nat → Nat) :
    bn_ext false junk ⟨some [0, 0, 0, 0, 0, 0, 0, 1], 8⟩ 8
        = some ⟨some [0, 0, 0, 0, 0, 0, 0, 0, 0, 0, 0, 0, 0, 0, 0, 1], 16⟩
    ∧ bn_comp (some ⟨some [0, 0, 0, 0, 0, 0, 0, 1], 8⟩)
        (some ⟨some [0, 0, 0, 0, 0, 0, 0, 0, 0, 0, 0, 0, 0, 0, 0, 1], 16⟩) = some 0 :=
  ⟨rfl, by decide⟩

/-- C5, evaluated: copying the 3-byte magnitude `[1, 2, 3]` into an empty
destination sizes the destination to three bytes but copies `3 / 8 = 0` words:
the destination holds three zero bytes and `bn_comp` reports the source as
greater (1).  And copying an empty magnitude over a destination that owns
three bytes returns early: the size field stays 3 over a released block. -/
theorem bn_cpy_drops_trailing_bytes (junk : Nat → Nat) :
    bn_cpy junk ⟨none, 0⟩ ⟨some [1, 2, 3], 3⟩ = some ⟨some [0, 0, 0], 3⟩
    ∧ bn_comp (some ⟨some [1, 2, 3], 3⟩) (some ⟨some [0, 0, 0], 3⟩) = some 1
    ∧ bn_cpy junk ⟨some [9, 9, 9], 3⟩ ⟨some [], 0⟩ = some ⟨some [], 3⟩ :=
  ⟨rfl, by decide, rfl⟩

/-- Where `bn_cpy` does clone: for an initialized magnitude `a` whose size is a
multiple of the word width and not zero (or any such multiple when the
destination owns no block), `bn_cpy(b, a)` leaves `b` with size `a.size` and
the bytes of `a`, and `bn_comp(a, b)` then reports equal (0). -/
theorem bn_cpy_word_aligned (junk : Nat → Nat) (a b : bn_t)
    (ha : initialized a) (hal : a.size % WORD = 0) (h0 : a.size ≠ 0 ∨ b.num = none) :
    ∃ r, bn_cpy junk b a = some r ∧ r.size = a.size ∧ bytes r = bytes a
      ∧ bn_comp (some a) (some r) = some 0 := by
  have ea := initialized_eta ha
  have hl := ha.2.1
  simp only [WORD] at hal
  have h := bn_cpy_aligned junk b (bytes a) (by rw [hl]; exact hal) (by rw [hl]; exact h0)
  rw [← ea] at h
  refine ⟨a, h, rfl, rfl, ?_⟩
  rw [bn_comp_initialized ha ha]
  simp [cmpCode]

/-- An instance of `bn_cpy_word_aligned`: a one-word source copied over a
3-byte destination. -/
theorem bn_cpy_word_aligned_witness :
    initialized ⟨some [1, 2, 3, 4, 5, 6, 7, 8], 8⟩
    ∧ (⟨some [1, 2, 3, 4, 5, 6, 7, 8], 8⟩ : bn_t).size % WORD = 0
    ∧ ((⟨some [1, 2, 3, 4, 5, 6, 7, 8], 8⟩ : bn_t).size ≠ 0
        ∨ (⟨some [9, 9, 9], 3⟩ : bn_t).num = none)
    ∧ ∃ r, bn_cpy (fun _ => 170) ⟨some [9, 9, 9], 3⟩ ⟨some [1, 2, 3, 4, 5, 6, 7, 8], 8⟩ = some r
      ∧ r.size = (⟨some [1, 2, 3, 4, 5, 6, 7, 8], 8⟩ : bn_t).size
      ∧ bytes r = bytes ⟨some [1, 2, 3, 4, 5, 6, 7, 8], 8⟩
      ∧ bn_comp (some ⟨some [1, 2, 3, 4, 5, 6, 7, 8], 8⟩) (some r) = some 0 :=
  ⟨by decide, by decide, by decide,
    bn_cpy_word_aligned (fun _ => 170) ⟨some [1, 2, 3, 4, 5, 6, 7, 8], 8⟩ ⟨some [9, 9, 9], 3⟩
      (by decide) (by decide) (by decide)⟩

/-- C7, evaluated: with a 1-byte destination, a 2-byte source and `n = 2`
(`dst.size < n <= src.size`) the copy loop of `bn_ncpy` is not clamped and its
second store lands outside the destination buffer, on either byte order. -/
theorem bn_ncpy_unclamped_faults (le : Bool) :
    bn_ncpy le ⟨some [0], 1⟩ ⟨some [1, 2], 2⟩ 2 = none := by
  cases le <;> decide

/-- C9, evaluated: with both operands null `bn_comp` stores 0; with only the
first operand null it stores 1, the code that means "number1 is greater", and
with only the second operand null it stores 2, the code that means "number2 is
greater": a missing operand is reported as the greater one.  On operands that
are not null the same function reports an empty first operand as the smaller
one (2). -/
theorem bn_comp_null_codes (a b : bn_t) :
    bn_comp none none = some 0
    ∧ bn_comp none (some b) = some 1
    ∧ bn_comp (some a) none = some 2
    ∧ bn_comp (some ⟨some [], 0⟩) (some ⟨some [5], 1⟩) = some 2 :=
  ⟨rfl, rfl, rfl, by decide⟩

/-- C8: on initialized magnitudes of arbitrary sizes `bn_comp` always stores 0,
1 or 2; it stores 1 for `(a, b)` exactly when it stores 2 for `(b, a)`, 0 for
`(a, b)` exactly when 0 for `(b, a)`, 0 for `(a, a)`; greater is transitive; and
all-zero buffers of any two sizes (such as 4 and 8 bytes) compare equal. -/
theorem bn_comp_total_order (a b c : bn_t)
    (ha : initialized a) (hb : initialized b) (hc : initialized c) :
    (bn_comp (some a) (some b) = some 0 ∨ bn_comp (some a) (some b) = some 1
        ∨ bn_comp (some a) (some b) = some 2)
      ∧ (bn_comp (some a) (some b) = some 1 ↔ bn_comp (some b) (some a) = some 2)
      ∧ (bn_comp (some a) (some b) = some 0 ↔ bn_comp (some b) (some a) = some 0)
      ∧ bn_comp (some a) (some a) = some 0
      ∧ (bn_comp (some a) (some b) = some 1 → bn_comp (some b) (some c) = some 1 →
          bn_comp (some a) (some c) = some 1)
      ∧ (∀ m n : Nat, bn_comp (some (bn_init m)) (some (bn_init n)) = some 0) := by
  rw [bn_comp_initialized ha hb, bn_comp_initialized hb ha, bn_comp_initialized ha ha,
    bn_comp_initialized hb hc, bn_comp_initialized ha hc]
  generalize valBE (bytes a) = x
  generalize valBE (bytes b) = y
  generalize valBE (bytes c) = z
  refine ⟨?_, ?_, ?_, ?_, ?_, ?_⟩
  · simp only [cmpCode, Option.some.injEq]
    split_ifs <;> simp
  · simp only [cmpCode, Option.some.injEq]
    split_ifs <;> simp
    omega
  · simp only [cmpCode, Option.some.injEq]
    split_ifs <;> simp
  · simp [cmpCode]
  · simp only [cmpCode, Option.some.injEq]
    split_ifs <;> simp <;> omega
  · intro m n
    have h := bn_comp_eq_cmpCode (List.replicate m 0) (List.replicate n 0)
      (isBytes_replicate_zero m) (isBytes_replicate_zero n)
    simp only [List.length_replicate, valBE_replicate_zero] at h
    exact h

/-- Witness for C8: the magnitudes with big-endian values 0x0102, 0x03 and 0. -/
theorem bn_comp_total_order_witness :
    initialized ⟨some [0, 1, 2], 3⟩ ∧ initialized ⟨some [3], 1⟩ ∧ initialized ⟨some [0, 0], 2⟩
    ∧ bn_comp (some ⟨some [0, 1, 2], 3⟩) (some ⟨some [3], 1⟩) = some 1
    ∧ bn_comp (some ⟨some [3], 1⟩) (some ⟨some [0, 0], 2⟩) = some 1
    ∧ bn_comp (some ⟨some [0, 1, 2], 3⟩) (some ⟨some [0, 0], 2⟩) = some 1 :=
  ⟨by decide, by decide, by decide, by decide, by decide,
    (bn_comp_total_order ⟨some [0, 1, 2], 3⟩ ⟨some [3], 1⟩ ⟨some [0, 0], 2⟩
      (by decide) (by decide) (by decide)).2.2.2.2.1 (by decide) (by decide)⟩

/-- C10, evaluated on a little-endian host: a 64-byte magnitude whose least- and
most-significant words are 1 is cut to 15 bytes by one `bn_srk` and to 2 bytes
by a second one. -/
theorem bn_srk_twice (junk : Nat → Nat) :
    bn_srk true junk
        ⟨some ([1, 0, 0, 0, 0, 0, 0, 0] ++ List.replicate 48 0 ++ [1, 0, 0, 0, 0, 0, 0, 0]), 64⟩
      = some ⟨some [1, 0, 0, 0, 0, 0, 0, 0, 0, 0, 0, 0, 0, 0, 0], 15⟩
    ∧ bn_srk true junk ⟨some [1, 0, 0, 0, 0, 0, 0, 0, 0, 0, 0, 0, 0, 0, 0], 15⟩
      = some ⟨some [1, 0], 2⟩ :=
  ⟨rfl, rfl⟩

/-! ## Claims on the addition -/

/-- C1, evaluated on a little-endian host whose `realloc` hands back a new
block: adding 1 to the three-word magnitude of 24 bytes 0xFF carries out of the
top word; the destination is extended, the cursor `num1` still points into the
released block, and the round that should store the carry is a memory fault,
however many rounds are allowed.  The one-word sum `0xFFFFFFFFFFFFFFFF + 0x1`
of the specification takes the same path. -/
theorem bn_sum_little_endian_carry_out_faults (junk : Nat → Nat) (fuel : Nat) :
    bn_sum true junk true (fuel + 4) ⟨some (List.replicate 24 255), 24⟩
        ⟨some [1, 0, 0, 0, 0, 0, 0, 0], 8⟩ = Outcome.fault
    ∧ bn_sum true junk true (fuel + 2) ⟨some [255, 255, 255, 255, 255, 255, 255, 255], 8⟩
        ⟨some [1, 0, 0, 0, 0, 0, 0, 0], 8⟩ = Outcome.fault :=
  ⟨rfl, rfl⟩

/-- On a little-endian host the stale cursor strikes on every carry-out of the
top word: for initialized word-aligned operands whose sum does not fit in the
longer of the two, a `realloc` that moves the block makes `bn_sum` end in a
memory fault. -/
theorem bn_sum_little_endian_moved_faults (junk : Nat → Nat) (fuel : Nat) (dst addend : bn_t)
    (hd : initialized dst) (ha : initialized addend)
    (hds : dst.size % WORD = 0) (has : addend.size % WORD = 0)
    (hf : max dst.size addend.size / WORD + 1 ≤ fuel)
    (hov : ¬ valLE (bytes dst) + valLE (bytes addend) < 256 ^ max dst.size addend.size) :
    bn_sum true junk true fuel dst addend = Outcome.fault := by
  have ed := initialized_eta hd
  have ea := initialized_eta ha
  have hdl := hd.2.1
  have hal := ha.2.1
  simp only [WORD] at hds has hf
  obtain ⟨r, hrun, hr, hval, hlen⟩ := bn_sum_le junk true (bytes dst) (bytes addend)
    (dst.size / 8) (addend.size / 8) hd.2.2 (by omega) ha.2.2 (by omega) fuel (by omega)
  rw [← ed, ← ea] at hrun
  have hM : 8 * max (dst.size / 8) (addend.size / 8) = max dst.size addend.size := by omega
  have hlt := valLE_lt hr
  have hne : r.length ≠ 8 * max (dst.size / 8) (addend.size / 8) := by
    intro h
    rw [h, hM, hval] at hlt
    exact hov hlt
  rw [if_pos ⟨rfl, hne⟩] at hrun
  exact hrun

/-- An instance of `bn_sum_little_endian_moved_faults`: `0xFFFFFFFFFFFFFFFF + 0x1`,
one word each. -/
theorem bn_sum_little_endian_moved_faults_witness :
    bn_sum true (fun _ => 0) true 2 ⟨some [255, 255, 255, 255, 255, 255, 255, 255], 8⟩
        ⟨some [1, 0, 0, 0, 0, 0, 0, 0], 8⟩ = Outcome.fault :=
  bn_sum_little_endian_moved_faults (fun _ => 0) 2
    ⟨some [255, 255, 255, 255, 255, 255, 255, 255], 8⟩ ⟨some [1, 0, 0, 0, 0, 0, 0, 0], 8⟩
    (by decide) (by decide) (by decide) (by decide) (by decide)
    (by simp [bytes, valLE])

/-- Where `bn_sum` does add: on a little-endian host with 8-byte words, for
initialized magnitudes `dst` and `addend` whose sizes are multiples of the word
width, when the `realloc` inside the loop extends the block in place or the sum
fits in the longer operand, `bn_sum` run for at least
`max (dst words) (addend words) + 1` rounds ends normally, leaves `addend` as it
was, and the value of `dst` (word 0 least significant, equivalently byte 0
least significant) becomes exactly the old value of `dst` plus the value of
`addend`. -/
theorem bn_sum_little_endian (junk : Nat → Nat) (moved : Bool) (fuel : Nat) (dst addend : bn_t)
    (hd : initialized dst) (ha : initialized addend)
    (hds : dst.size % WORD = 0) (has : addend.size % WORD = 0)
    (hf : max dst.size addend.size / WORD + 1 ≤ fuel)
    (hm : moved = false
      ∨ valLE (bytes dst) + valLE (bytes addend) < 256 ^ max dst.size addend.size) :
    ∃ r, bn_sum true junk moved fuel dst addend = Outcome.done (r, addend)
      ∧ initialized r ∧ r.size % WORD = 0
      ∧ valWords (words true (bytes r))
          = valWords (words true (bytes dst)) + valWords (words true (bytes addend))
      ∧ valLE (bytes r) = valLE (bytes dst) + valLE (bytes addend) := by
  have ed := initialized_eta hd
  have ea := initialized_eta ha
  have hdl := hd.2.1
  have hal := ha.2.1
  simp only [WORD] at hds has hf
  obtain ⟨r, hrun, hr, hval, hlen⟩ := bn_sum_le junk moved (bytes dst) (bytes addend)
    (dst.size / 8) (addend.size / 8) hd.2.2 (by omega) ha.2.2 (by omega) fuel (by omega)
  rw [← ed, ← ea] at hrun
  have hM : 8 * max (dst.size / 8) (addend.size / 8) = max dst.size addend.size := by omega
  have hno : ¬ (moved = true ∧ r.length ≠ 8 * max (dst.size / 8) (addend.size / 8)) := by
    rintro ⟨hmv, hne⟩
    rcases hm with h | hfit
    · rw [h] at hmv
      cases hmv
    · rcases hlen with h | ⟨_, hw⟩
      · exact hne h
      · rw [readWord_le hr _ (by omega), hM, hval, Nat.div_eq_of_lt hfit] at hw
        simp at hw
  rw [if_neg hno] at hrun
  have hr8 : r.length % 8 = 0 := by omega
  have hvd : valWords (words true (bytes dst)) = valLE (bytes dst) :=
    valWords_words (by rw [hdl]; exact hds)
  have hva : valWords (words true (bytes addend)) = valLE (bytes addend) :=
    valWords_words (by rw [hal]; exact has)
  have hvr : valWords (words true r) = valLE r := valWords_words hr8
  refine ⟨⟨some r, r.length⟩, hrun, ⟨rfl, rfl, hr⟩, hr8, ?_, hval⟩
  show valWords (words true r) = _
  rw [hvr, hvd, hva]
  exact hval

/-- An instance of `bn_sum_little_endian`: `0xFFFFFFFFFFFFFFFF + 0x1`, one word
each, with a `realloc` that extends the block in place. -/
theorem bn_sum_little_endian_witness :
    ∃ r, bn_sum true (fun _ => 0) false 2 ⟨some [255, 255, 255, 255, 255, 255, 255, 255], 8⟩
          ⟨some [1, 0, 0, 0, 0, 0, 0, 0], 8⟩
        = Outcome.done (r, ⟨some [1, 0, 0, 0, 0, 0, 0, 0], 8⟩)
      ∧ initialized r ∧ r.size % WORD = 0
      ∧ valWords (words true (bytes r))
          = valWords (words true (bytes ⟨some [255, 255, 255, 255, 255, 255, 255, 255], 8⟩))
            + valWords (words true (bytes ⟨some [1, 0, 0, 0, 0, 0, 0, 0], 8⟩))
      ∧ valLE (bytes r)
          = valLE (bytes ⟨some [255, 255, 255, 255, 255, 255, 255, 255], 8⟩)
            + valLE (bytes ⟨some [1, 0, 0, 0, 0, 0, 0, 0], 8⟩) :=
  bn_sum_little_endian (fun _ => 0) false 2 ⟨some [255, 255, 255, 255, 255, 255, 255, 255], 8⟩
    ⟨some [1, 0, 0, 0, 0, 0, 0, 0], 8⟩ (by decide) (by decide) (by decide) (by decide)
    (by decide) (Or.inl rfl)

/-- The two sums the specification lists, on a little-endian host whose
`realloc` extends the block in place: `0x00..00FF + 0x01 = 0x0100` and
`0xFFFFFFFFFFFFFFFF + 0x1 = 0x10000000000000000`, the second growing the
destination by one word. -/
theorem bn_sum_spec_vectors :
    bn_sum true (fun _ => 0) false 2 ⟨some [255, 0, 0, 0, 0, 0, 0, 0], 8⟩
          ⟨some [1, 0, 0, 0, 0, 0, 0, 0], 8⟩
        = Outcome.done (⟨some [0, 1, 0, 0, 0, 0, 0, 0], 8⟩, ⟨some [1, 0, 0, 0, 0, 0, 0, 0], 8⟩)
    ∧ bn_sum true (fun _ => 0) false 2 ⟨some [255, 255, 255, 255, 255, 255, 255, 255], 8⟩
          ⟨some [1, 0, 0, 0, 0, 0, 0, 0], 8⟩
        = Outcome.done (⟨some [0, 0, 0, 0, 0, 0, 0, 0, 1, 0, 0, 0, 0, 0, 0, 0], 16⟩,
            ⟨some [1, 0, 0, 0, 0, 0, 0, 0], 8⟩) := by
  decide

/-- On a little-endian host whose `realloc` extends the block in place, the
size of `dst` after `bn_sum` is `max dst.size addend.size` when the sum fits in
that many bytes and one word more otherwise, the extra word then holding 1;
`addend` is unchanged. -/
theorem bn_sum_size_little_endian (junk : Nat → Nat) (fuel : Nat) (dst addend : bn_t)
    (hd : initialized dst) (ha : initialized addend)
    (hds : dst.size % WORD = 0) (has : addend.size % WORD = 0)
    (hf : max dst.size addend.size / WORD + 1 ≤ fuel) :
    ∃ r, bn_sum true junk false fuel dst addend = Outcome.done (r, addend)
      ∧ (valLE (bytes dst) + valLE (bytes addend) < 256 ^ max dst.size addend.size →
          r.size = max dst.size addend.size)
      ∧ (¬ valLE (bytes dst) + valLE (bytes addend) < 256 ^ max dst.size addend.size →
          r.size = max dst.size addend.size + WORD
          ∧ readWord true (bytes r) ((max dst.size addend.size / WORD : Nat) : Int) = some 1) := by
  have ed := initialized_eta hd
  have ea := initialized_eta ha
  have hdl := hd.2.1
  have hal := ha.2.1
  simp only [WORD] at hds has hf ⊢
  obtain ⟨r, hrun, hr, hval, hlen⟩ := bn_sum_le junk false (bytes dst) (bytes addend)
    (dst.size / 8) (addend.size / 8) hd.2.2 (by omega) ha.2.2 (by omega) fuel (by omega)
  rw [if_neg (by simp), ← ed, ← ea] at hrun
  have hM : 8 * max (dst.size / 8) (addend.size / 8) = max dst.size addend.size := by omega
  have hM2 : max (dst.size / 8) (addend.size / 8) = max dst.size addend.size / 8 := by omega
  rw [hM, hM2] at hlen
  have hlt := valLE_lt hr
  refine ⟨⟨some r, r.length⟩, hrun, ?_, ?_⟩
  · intro hfit
    rcases hlen with h | ⟨h, hw⟩
    · exact h
    · exfalso
      rw [readWord_le hr _ (by omega)] at hw
      have e : 8 * (max dst.size addend.size / 8) = max dst.size addend.size := by omega
      rw [e, hval, Nat.div_eq_of_lt hfit] at hw
      simp at hw
  · intro hfit
    rcases hlen with h | ⟨h, hw⟩
    · exfalso
      rw [h, hval] at hlt
      exact hfit hlt
    · exact ⟨h, hw⟩

/-- C2, evaluated on a big-endian host: adding 1 to the one-word magnitude
0xFFFFFFFFFFFFFFFF carries out of the most-significant word; the destination is
extended, but the cursor `num1` is not derived again: it has stepped below the
start of the block it came from, and the next round reads the word in front of
that block (or a released block, when `realloc` moved it). -/
theorem bn_sum_big_endian_carry_faults (junk : Nat → Nat) (moved : Bool) (fuel : Nat) :
    bn_sum false junk moved (fuel + 2) ⟨some [255, 255, 255, 255, 255, 255, 255, 255], 8⟩
        ⟨some [0, 0, 0, 0, 0, 0, 0, 1], 8⟩
      = Outcome.fault := by
  cases moved <;> rfl

/-- On a big-endian host a sum without carry-out of the most-significant word is
computed in place: `0x00..00FF + 0x01 = 0x0100` in one word. -/
theorem bn_sum_big_endian_no_carry (junk : Nat → Nat) (moved : Bool) :
    bn_sum false junk moved 2 ⟨some [0, 0, 0, 0, 0, 0, 0, 255], 8⟩ ⟨some [0, 0, 0, 0, 0, 0, 0, 1], 8⟩
      = Outcome.done (⟨some [0, 0, 0, 0, 0, 0, 1, 0], 8⟩, ⟨some [0, 0, 0, 0, 0, 0, 0, 1], 8⟩) :=
  rfl

/-! ## Claims on the comparison by value and on the bounded copy -/

theorem valBE_zeros_append (z : Nat) (l : List Nat) :
    valBE (List.replicate z 0 ++ l) = valBE l := by
  induction z with
  | zero => rfl
  | succ z ih =>
    rw [List.replicate_succ, List.cons_append, valBE_cons, ih]
    simp

theorem cmpCode_eq_zero (x y : Nat) : cmpCode x y = 0 ↔ x = y := by
  simp only [cmpCode]
  split_ifs <;> simp <;> omega

theorem cmpCode_eq_one (x y : Nat) : cmpCode x y = 1 ↔ x > y := by
  simp only [cmpCode]
  split_ifs <;> simp <;> omega

theorem cmpCode_eq_two (x y : Nat) : cmpCode x y = 2 ↔ x < y := by
  simp only [cmpCode]
  split_ifs <;> simp <;> omega

theorem bn_comp_bytes_eq (a b : bn_t) (ha : (bytes a).length = a.size)
    (hab : isBytes (bytes a)) (hb : (bytes b).length = b.size) (hbb : isBytes (bytes b)) :
    bn_comp (some a) (some b) = some (cmpCode (valBE (bytes a)) (valBE (bytes b))) := by
  have h : bn_comp (some a) (some b)
      = bn_comp (some ⟨some (bytes a), a.size⟩) (some ⟨some (bytes b), b.size⟩) := rfl
  rw [h, ← ha, ← hb]
  exact bn_comp_eq_cmpCode (bytes a) (bytes b) hab hbb

/-- C18: for non-null magnitudes `a` and `b` of arbitrary byte sizes (zero
included) `bn_comp` stores 0, 1 or 2 exactly when the integer read from the
buffer of `a` with its first byte most significant is equal to, greater than or
less than the one read from `b`; zero bytes put in front of either buffer do not
change the result. -/
theorem bn_comp_big_endian_value (a b : bn_t) (ha : (bytes a).length = a.size)
    (hab : isBytes (bytes a)) (hb : (bytes b).length = b.size) (hbb : isBytes (bytes b)) :
    (bn_comp (some a) (some b) = some 0 ↔ valBE (bytes a) = valBE (bytes b))
      ∧ (bn_comp (some a) (some b) = some 1 ↔ valBE (bytes a) > valBE (bytes b))
      ∧ (bn_comp (some a) (some b) = some 2 ↔ valBE (bytes a) < valBE (bytes b))
      ∧ (∀ za zb : Nat,
          bn_comp (some ⟨some (List.replicate za 0 ++ bytes a), za + a.size⟩)
              (some ⟨some (List.replicate zb 0 ++ bytes b), zb + b.size⟩)
            = bn_comp (some a) (some b)) := by
  rw [bn_comp_bytes_eq a b ha hab hb hbb]
  refine ⟨?_, ?_, ?_, ?_⟩
  · rw [Option.some.injEq]; exact cmpCode_eq_zero _ _
  · rw [Option.some.injEq]; exact cmpCode_eq_one _ _
  · rw [Option.some.injEq]; exact cmpCode_eq_two _ _
  · intro za zb
    have h := bn_comp_bytes_eq ⟨some (List.replicate za 0 ++ bytes a), za + a.size⟩
      ⟨some (List.replicate zb 0 ++ bytes b), zb + b.size⟩
      (by simp [bytes, ha.symm]) (isBytes_append.2 ⟨isBytes_replicate_zero _, hab⟩)
      (by simp [bytes, hb.symm]) (isBytes_append.2 ⟨isBytes_replicate_zero _, hbb⟩)
    rw [h]
    simp only [bytes, Option.getD_some, valBE_zeros_append]

/-- Witness for C18: the buffers `[0, 1, 2]` and `[3]`. -/
theorem bn_comp_big_endian_value_witness :
    (bytes ⟨some [0, 1, 2], 3⟩).length = (⟨some [0, 1, 2], 3⟩ : bn_t).size
    ∧ isBytes (bytes ⟨some [0, 1, 2], 3⟩)
    ∧ (bytes ⟨some [3], 1⟩).length = (⟨some [3], 1⟩ : bn_t).size
    ∧ isBytes (bytes ⟨some [3], 1⟩)
    ∧ (bn_comp (some ⟨some [0, 1, 2], 3⟩) (some ⟨some [3], 1⟩) = some 1
        ↔ valBE (bytes ⟨some [0, 1, 2], 3⟩) > valBE (bytes ⟨some [3], 1⟩)) :=
  ⟨by decide, by decide, by decide, by decide,
    (bn_comp_big_endian_value ⟨some [0, 1, 2], 3⟩ ⟨some [3], 1⟩
      (by decide) (by decide) (by decide) (by decide)).2.1⟩

/-! ## `bn_ncpy` on a little-endian host -/

theorem bn_ncpy_copy_le (nbuf : List Nat) :
    ∀ (size res_size : Nat) (rbuf : List Nat) (k : Nat),
      size ≤ res_size → res_size < TWO64 → k + res_size ≤ rbuf.length →
      k + size ≤ nbuf.length →
      ∃ r, bn_ncpy_copy 1 nbuf size res_size rbuf k k
            = some (r, ((k + size : Nat) : Int), res_size - size)
        ∧ r.length = rbuf.length
        ∧ ∀ i, r[i]? = if k ≤ i ∧ i < k + size then nbuf[i]? else rbuf[i]? := by
  intro size
  induction size with
  | zero =>
    intro res_size rbuf k _ _ _ _
    exact ⟨rbuf, by simp [bn_ncpy_copy], rfl, by intro i; rw [if_neg]; omega⟩
  | succ size ih =>
    intro res_size rbuf k hs hlt hr hn
    have hk : k < nbuf.length := by omega
    have hk2 : k < rbuf.length := by omega
    have h64 : TWO64 = 18446744073709551616 := by norm_num [TWO64]
    have hdec : (res_size + TWO64 - 1) % TWO64 = res_size - 1 := by
      rw [h64] at hlt ⊢
      omega
    obtain ⟨r, hrun, hlen, hget⟩ := ih (res_size - 1) (rbuf.set k nbuf[k]) (k + 1)
      (by omega) (by omega) (by simp; omega) (by omega)
    refine ⟨r, ?_, by simpa using hlen, ?_⟩
    · simp only [bn_ncpy_copy, readByte_natCast, writeByte_natCast,
        List.getElem?_eq_getElem hk, if_pos hk2, hdec]
      have e : ((k : Int) + 1) = ((k + 1 : Nat) : Int) := by push_cast; rfl
      have e2 : k + 1 + size = k + (size + 1) := by omega
      have e3 : res_size - 1 - size = res_size - (size + 1) := by omega
      rw [e2, e3] at hrun
      rw [e, hrun]
    · intro i
      rw [hget i, List.getElem?_set]
      by_cases h1 : k = i
      · subst h1
        simp [hk, hk2]
      · simp only [h1, if_false]
        by_cases h2 : k + 1 ≤ i ∧ i < k + 1 + size
        · rw [if_pos h2, if_pos (by omega)]
        · rw [if_neg h2, if_neg (by omega)]

theorem bn_ncpy_le_eq (dbuf sbuf : List Nat) (n : Nat) (hn1 : n ≤ sbuf.length)
    (hn2 : n ≤ dbuf.length) (hlt : dbuf.length < TWO64) :
    bn_ncpy true ⟨some dbuf, dbuf.length⟩ ⟨some sbuf, sbuf.length⟩ n
      = some ⟨some (sbuf.take n ++ List.replicate (dbuf.length - n) 0), dbuf.length⟩ := by
  obtain ⟨r1, hrun1, hlen1, hget1⟩ :=
    bn_ncpy_copy_le sbuf n dbuf.length dbuf 0 hn2 hlt (by omega) (by omega)
  obtain ⟨r2, hrun2, hlen2, hget2⟩ :=
    bn_zero_fill_le (dbuf.length - n) r1 (0 + n) (by omega)
  simp only [bn_ncpy, if_true]
  simp only [Nat.cast_zero] at hrun1
  simp only [reduceCtorEq, if_false, if_neg (Nat.not_lt.2 hn1), hrun1, hrun2]
  congr 3
  apply List.ext_getElem?
  intro i
  rw [hget2 i, hget1 i, List.getElem?_append, List.getElem?_take, List.getElem?_replicate,
    List.length_take]
  by_cases h1 : i < n
  · rw [if_neg (by omega), if_pos ⟨by omega, by omega⟩, if_pos (by omega), if_pos h1]
  · by_cases h2 : i < dbuf.length
    · rw [if_pos (by omega), if_neg (by omega), if_pos (by omega)]
    · rw [if_neg (by omega), if_neg (by omega), if_neg (by omega), if_neg (by omega),
        List.getElem?_eq_none (by omega)]

/-- C19: on a little-endian host, for initialized `dst` and `src` and
`n <= src.size`, `n <= dst.size` (sizes being `size_t` values), `bn_ncpy` stays
inside both buffers, keeps `dst.size`, sets byte `i` of `dst` to byte `i` of
`src` for `i < n` and to 0 for `n <= i < dst.size`. -/
theorem bn_ncpy_little_endian (dst src : bn_t) (n : Nat)
    (hd : initialized dst) (hs : initialized src)
    (hn1 : n ≤ src.size) (hn2 : n ≤ dst.size) (hlt : dst.size < TWO64) :
    ∃ r, bn_ncpy true dst src n = some r ∧ r.size = dst.size ∧ initialized r
      ∧ ∀ i, i < dst.size → (bytes r)[i]? = if i < n then (bytes src)[i]? else some 0 := by
  have ed := initialized_eta hd
  have es := initialized_eta hs
  have hdl := hd.2.1
  have hsl := hs.2.1
  have h := bn_ncpy_le_eq (bytes dst) (bytes src) n (by omega) (by omega) (by omega)
  rw [← ed, ← es, hdl] at h
  refine ⟨_, h, rfl, ⟨rfl, ?_, ?_⟩, ?_⟩
  · simp only [bytes, Option.getD_some, List.length_append, List.length_take,
      List.length_replicate]
    have hsl' : (src.num.getD []).length = src.size := hsl
    omega
  · simp only [bytes, Option.getD_some]
    exact isBytes_append.2 ⟨isBytes_take hs.2.2 _, isBytes_replicate_zero _⟩
  · intro i hi
    have hsl' : (src.num.getD []).length = src.size := hsl
    simp only [bytes, Option.getD_some]
    rw [List.getElem?_append, List.length_take, List.getElem?_take, List.getElem?_replicate,
      hsl']
    by_cases h1 : i < n
    · rw [if_pos (by omega), if_pos h1, if_pos h1]
    · rw [if_neg (by omega), if_pos (by omega), if_neg h1]

/-- Witness for C19: two bytes of a 3-byte source into a 4-byte destination. -/
theorem bn_ncpy_little_endian_witness :
    initialized ⟨some [9, 9, 9, 9], 4⟩ ∧ initialized ⟨some [1, 2, 3], 3⟩
    ∧ 2 ≤ (⟨some [1, 2, 3], 3⟩ : bn_t).size ∧ 2 ≤ (⟨some [9, 9, 9, 9], 4⟩ : bn_t).size
    ∧ (⟨some [9, 9, 9, 9], 4⟩ : bn_t).size < TWO64
    ∧ ∃ r, bn_ncpy true ⟨some [9, 9, 9, 9], 4⟩ ⟨some [1, 2, 3], 3⟩ 2 = some r
      ∧ r.size = (⟨some [9, 9, 9, 9], 4⟩ : bn_t).size ∧ initialized r
      ∧ ∀ i, i < (⟨some [9, 9, 9, 9], 4⟩ : bn_t).size →
          (bytes r)[i]? = if i < 2 then (bytes ⟨some [1, 2, 3], 3⟩)[i]? else some 0 :=
  ⟨by decide, by decide, by decide, by decide, by decide,
    bn_ncpy_little_endian ⟨some [9, 9, 9, 9], 4⟩ ⟨some [1, 2, 3], 3⟩ 2
      (by decide) (by decide) (by decide) (by decide) (by decide)⟩

/-! ## `bn_rev` reverses the buffer -/

theorem bn_rev_loop_spec :
    ∀ (c : Nat) (buf : List Nat) (i : Nat), 2 * (i + c) ≤ buf.length →
      ∃ r, bn_rev_loop c buf i ((buf.length : Int) - 1 - i) = some r
        ∧ r.length = buf.length
        ∧ ∀ j, r[j]? =
            if (i ≤ j ∧ j < i + c) ∨ (buf.length - i - c ≤ j ∧ j < buf.length - i) then
              buf[buf.length - 1 - j]?
            else buf[j]? := by
  intro c
  induction c with
  | zero =>
    intro buf i _
    exact ⟨buf, rfl, rfl, by intro j; rw [if_neg]; omega⟩
  | succ c ih =>
    intro buf i h
    have hi : i < buf.length := by omega
    have he : buf.length - 1 - i < buf.length := by omega
    have hne : i ≠ buf.length - 1 - i := by omega
    have ecast : ((buf.length : Int) - 1 - i) = ((buf.length - 1 - i : Nat) : Int) := by omega
    have hlen2 : ((buf.set i buf[buf.length - 1 - i]).set (buf.length - 1 - i) buf[i]).length
        = buf.length := by simp
    obtain ⟨r, hrun, hlen, hget⟩ :=
      ih ((buf.set i buf[buf.length - 1 - i]).set (buf.length - 1 - i) buf[i]) (i + 1)
        (by rw [hlen2]; omega)
    rw [hlen2] at hrun hlen hget
    refine ⟨r, ?_, hlen, ?_⟩
    · have e1 : ((i : Int) + 1) = ((i + 1 : Nat) : Int) := by push_cast; rfl
      have e2 : ((buf.length - 1 - i : Nat) : Int) - 1
          = (buf.length : Int) - 1 - ((i + 1 : Nat) : Int) := by omega
      simp only [bn_rev_loop, ecast, readByte_natCast, writeByte_natCast,
        List.getElem?_eq_getElem hi, List.getElem?_eq_getElem he, if_pos hi,
        List.length_set, if_pos he, e1, e2]
      exact hrun
    · intro j
      rw [hget j]
      by_cases h1 : (i + 1 ≤ j ∧ j < i + 1 + c)
          ∨ (buf.length - (i + 1) - c ≤ j ∧ j < buf.length - (i + 1))
      · rw [if_pos h1, if_pos (by omega), List.getElem?_set, if_neg (by omega),
          List.getElem?_set, if_neg (by omega)]
      · rw [if_neg h1, List.getElem?_set]
        by_cases h2 : buf.length - 1 - i = j
        · subst h2
          rw [if_pos rfl, List.length_set, if_pos he, if_pos (by omega)]
          have : buf.length - 1 - (buf.length - 1 - i) = i := by omega
          rw [this, List.getElem?_eq_getElem hi]
        · rw [if_neg h2, List.getElem?_set]
          by_cases h3 : i = j
          · subst h3
            rw [if_pos rfl, if_pos hi, if_pos (by omega), List.getElem?_eq_getElem he]
          · rw [if_neg h3, if_neg (by omega)]

theorem bn_rev_eq (buf : List Nat) :
    bn_rev ⟨some buf, buf.length⟩ = some ⟨some buf.reverse, buf.length⟩ := by
  obtain ⟨r, hrun, hlen, hget⟩ := bn_rev_loop_spec (buf.length / 2) buf 0 (by omega)
  simp only [Nat.cast_zero, sub_zero] at hrun
  simp only [bn_rev, hrun]
  congr 3
  apply List.ext_getElem?
  intro j
  rw [hget j]
  by_cases hj : j < buf.length
  · rw [List.getElem?_reverse hj]
    by_cases h1 : (0 ≤ j ∧ j < 0 + buf.length / 2)
        ∨ (buf.length - 0 - buf.length / 2 ≤ j ∧ j < buf.length - 0)
    · rw [if_pos h1]
    · rw [if_neg h1]
      congr 1
      omega
  · rw [List.getElem?_eq_none (l := buf.reverse) (by rw [List.length_reverse]; omega)]
    by_cases h1 : (0 ≤ j ∧ j < 0 + buf.length / 2)
        ∨ (buf.length - 0 - buf.length / 2 ≤ j ∧ j < buf.length - 0)
    · rw [if_pos h1, List.getElem?_eq_none (by omega)]
    · rw [if_neg h1, List.getElem?_eq_none (by omega)]

theorem isBytes_reverse {a : List Nat} (h : isBytes a) : isBytes a.reverse :=
  fun b hb => h b (List.mem_reverse.1 hb)

/-- C15: for an initialized magnitude of any byte size (even, odd, 0 or 1)
`bn_rev` keeps the size and maps byte `i` to position `size - 1 - i`, and a
second `bn_rev` restores the original magnitude exactly. -/
theorem bn_rev_involution (a : bn_t) (ha : initialized a) :
    ∃ r, bn_rev a = some r ∧ r.size = a.size ∧ initialized r
      ∧ bytes r = (bytes a).reverse
      ∧ (∀ i, i < a.size → (bytes r)[a.size - 1 - i]? = (bytes a)[i]?)
      ∧ bn_rev r = some a := by
  have ea := initialized_eta ha
  have hl := ha.2.1
  have h := bn_rev_eq (bytes a)
  rw [← ea] at h
  refine ⟨_, h, hl, ⟨rfl, ?_, ?_⟩, rfl, ?_, ?_⟩
  · simp [bytes]
  · exact isBytes_reverse ha.2.2
  · intro i hi
    show (bytes a).reverse[a.size - 1 - i]? = _
    rw [List.getElem?_reverse (by omega), hl]
    congr 1
    omega
  · have h2 := bn_rev_eq (bytes a).reverse
    rw [List.reverse_reverse, List.length_reverse] at h2
    rw [h2]
    exact congrArg some ea.symm

/-- Witness for C15: a 3-byte magnitude. -/
theorem bn_rev_involution_witness :
    initialized ⟨some [1, 2, 3], 3⟩
    ∧ ∃ r, bn_rev ⟨some [1, 2, 3], 3⟩ = some r ∧ r.size = (⟨some [1, 2, 3], 3⟩ : bn_t).size
      ∧ initialized r
      ∧ bytes r = (bytes ⟨some [1, 2, 3], 3⟩).reverse
      ∧ (∀ i, i < (⟨some [1, 2, 3], 3⟩ : bn_t).size →
          (bytes r)[(⟨some [1, 2, 3], 3⟩ : bn_t).size - 1 - i]?
            = (bytes ⟨some [1, 2, 3], 3⟩)[i]?)
      ∧ bn_rev r = some ⟨some [1, 2, 3], 3⟩ :=
  ⟨by decide, bn_rev_involution ⟨some [1, 2, 3], 3⟩ (by decide)⟩

/-! ## Reading a word and writing it back, on either byte order -/

theorem bytesLE_valLE {bs : List Nat} (h : isBytes bs) : bytesLE bs.length (valLE bs) = bs := by
  induction bs with
  | nil => rfl
  | cons x bs ih =>
    rw [isBytes_cons] at h
    have e1 : (x + 256 * valLE bs) % 256 = x := by omega
    have e2 : (x + 256 * valLE bs) / 256 = valLE bs := by omega
    simp only [List.length_cons, bytesLE, valLE, e1, e2, ih h.2]

theorem valBE_eq_valLE_reverse (l : List Nat) : valBE l = valLE l.reverse := by
  induction l with
  | nil => rfl
  | cons x l ih =>
    rw [valBE_cons, List.reverse_cons, valLE_append, List.length_reverse, ih]
    simp only [valLE]
    ring

theorem encode_decode (le : Bool) {bs : List Nat} (h : isBytes bs) (hl : bs.length = 8) :
    encodeWord le (decodeWord le bs) = bs := by
  cases le
  · have h2 := bytesLE_valLE (isBytes_reverse h)
    rw [List.length_reverse, hl] at h2
    simp only [encodeWord, decodeWord, Bool.false_eq_true, if_false, WORD,
      valBE_eq_valLE_reverse, h2, List.reverse_reverse]
  · have h2 := bytesLE_valLE h
    rw [hl] at h2
    simp only [encodeWord, decodeWord, if_true, WORD, h2]

theorem decodeWord_lt (le : Bool) {bs : List Nat} (h : isBytes bs) (hl : bs.length = 8) :
    decodeWord le bs < 2 ^ 64 := by
  cases le
  · have := valBE_lt h
    rw [hl, pow_word] at this
    simpa [decodeWord] using this
  · have := valLE_lt h
    rw [hl, pow_word] at this
    simpa [decodeWord] using this

theorem readWord_writeWord (le : Bool) {buf : List Nat} (h : isBytes buf) (k : Nat)
    (hk : 8 * k + 8 ≤ buf.length) :
    ∃ x, readWord le buf k = some x ∧ x < 2 ^ 64 ∧ writeWord le buf k x = some buf := by
  have hl : ((buf.drop (8 * k)).take 8).length = 8 := by
    rw [List.length_take, List.length_drop]; omega
  have hb : isBytes ((buf.drop (8 * k)).take 8) := isBytes_take (isBytes_drop h _) _
  refine ⟨decodeWord le ((buf.drop (8 * k)).take 8), ?_, decodeWord_lt le hb hl, ?_⟩
  · simp only [readWord, load_natCast]
    rw [if_pos (by simp only [WORD]; omega)]
    simp only [Option.map_some', WORD]
  · simp only [writeWord]
    rw [encode_decode le hb hl, store_natCast, hl, if_pos hk]
    congr 1
    have e : buf.drop (8 * k + 8) = (buf.drop (8 * k)).drop 8 := by
      rw [List.drop_drop]
    rw [e, List.append_assoc, List.take_append_drop, List.take_append_drop]

theorem readWord_zeros (le : Bool) (m k : Nat) (hk : 8 * k + 8 ≤ m) :
    readWord le (List.replicate m 0) k = some 0 := by
  simp only [readWord, load_natCast, List.length_replicate]
  rw [if_pos (by simp only [WORD]; omega)]
  have e : ((List.replicate m 0).drop (8 * k)).take WORD = List.replicate 8 (0 : Nat) := by
    rw [List.drop_replicate, List.take_replicate]
    congr 1
    simp only [WORD]
    omega
  rw [e]
  cases le <;> rfl

/-! ## Adding a zero magnitude, on either byte order -/

theorem bn_sum_loop_zero (le : Bool) (junk : Nat → Nat) (moved : Bool) (m : Nat) (B : List Nat)
    (hB : isBytes B) (sz : Nat) :
    ∀ (size2 size1 fuel : Nat) (num1 num2 : Int), size2 ≤ size1 → size2 ≤ fuel →
      (∀ j : Nat, j < size2 →
        ∃ k : Nat, num1 + (if le then 1 else -1) * (j : Int) = k ∧ 8 * k + 8 ≤ B.length) →
      (∀ j : Nat, j < size2 →
        ∃ k : Nat, num2 + (if le then 1 else -1) * (j : Int) = k ∧ 8 * k + 8 ≤ m) →
      bn_sum_loop le junk moved (List.replicate m 0) fuel ⟨some B, sz⟩ false size1 size2 num1 num2 0
        = Outcome.done ⟨some B, sz⟩ := by
  intro size2
  induction size2 with
  | zero =>
    intro size1 fuel num1 num2 _ _ _ _
    exact bn_sum_loop_exit _ _ _ _ _ _ _ _ _ _ _ _ (by simp)
  | succ s ih =>
    intro size1 fuel num1 num2 h1 hf hb1 hb2
    obtain ⟨f, rfl⟩ : ∃ f, fuel = f + 1 := ⟨fuel - 1, by omega⟩
    obtain ⟨k1, hk1, hk1b⟩ := hb1 0 (by omega)
    obtain ⟨k2, hk2, hk2b⟩ := hb2 0 (by omega)
    simp only [Nat.cast_zero, mul_zero, add_zero] at hk1 hk2
    subst hk1
    subst hk2
    obtain ⟨x, hr, hx, hw⟩ := readWord_writeWord le hB k1 hk1b
    have hz := readWord_zeros le m k2 hk2b
    have hsw := sum_word_spec true x 0 0 hx (by norm_num) (by omega)
    have e1 : (x + (if true = true then 0 else 0) + 0) % 2 ^ 64 = x := by
      simp only [if_true, Nat.add_zero]; exact Nat.mod_eq_of_lt hx
    have e2 : (x + (if true = true then 0 else 0) + 0) / 2 ^ 64 = 0 := by
      simp only [if_true, Nat.add_zero]; exact Nat.div_eq_of_lt hx
    rw [e1, e2] at hsw
    have hcond : size1 > 0 ∧ (s + 1 > 0 ∨ (0 : Nat) ≠ 0) := ⟨by omega, Or.inl (by omega)⟩
    have hpos : s + 1 > 0 := by omega
    have hdec : decide (s + 1 > 0) = true := decide_eq_true hpos
    rw [bn_sum_loop, if_pos hcond]
    simp only [Option.getD_some, if_pos hpos, hz, hr, hdec, hsw, hw, Nat.add_sub_cancel,
      Bool.false_eq_true, if_false]
    rw [if_neg (by simp)]
    apply ih (size1 - 1) f _ _ (by omega) (by omega)
    · intro j hj
      obtain ⟨k, hk, hkb⟩ := hb1 (j + 1) (by omega)
      refine ⟨k, ?_, hkb⟩
      rw [← hk]
      push_cast
      ring
    · intro j hj
      obtain ⟨k, hk, hkb⟩ := hb2 (j + 1) (by omega)
      refine ⟨k, ?_, hkb⟩
      rw [← hk]
      push_cast
      ring

theorem bn_sum_zero_eq (le : Bool) (junk : Nat → Nat) (moved : Bool) (fuel : Nat) (B : List Nat)
    (n1 m2 : Nat)
    (hB : isBytes B) (hl : B.length = 8 * n1) (hm : m2 ≤ n1) (hf : m2 ≤ fuel) :
    bn_sum le junk moved fuel ⟨some B, B.length⟩ ⟨some (List.replicate (8 * m2) 0), 8 * m2⟩
      = Outcome.done (⟨some B, B.length⟩, ⟨some (List.replicate (8 * m2) 0), 8 * m2⟩) := by
  have e1 : B.length / WORD = n1 := by simp [WORD, hl]
  have e2 : 8 * m2 / WORD = m2 := by simp [WORD]
  have hrun := bn_sum_loop_zero le junk moved (8 * m2) B hB B.length m2 n1 fuel
    (if le then 0 else (n1 : Int) - 1) (if le then 0 else (m2 : Int) - 1) hm hf
    (by
      intro j hj
      cases le
      · exact ⟨n1 - 1 - j, by simp only [Bool.false_eq_true, if_false]; omega, by omega⟩
      · exact ⟨j, by simp, by omega⟩)
    (by
      intro j hj
      cases le
      · exact ⟨m2 - 1 - j, by simp only [Bool.false_eq_true, if_false]; omega, by omega⟩
      · exact ⟨j, by simp, by omega⟩)
  simp only [bn_sum, if_neg (show ¬ B.length < 8 * m2 by omega), e1, e2, hrun]

/-! ## Claims on the additive identity and on the shift by zero -/

/-- C16: on either byte order, for an initialized word-aligned magnitude `a`
and an initialized word-aligned magnitude `z` whose bytes are all zero, with
`z.size <= a.size`, `bn_sum(a, z)` run for at least `z.size / 8` rounds ends
normally and leaves the size and every byte of `a` (and `z`) unchanged. -/
theorem bn_sum_zero_identity (le : Bool) (junk : Nat → Nat) (moved : Bool) (fuel : Nat)
    (a z : bn_t)
    (ha : initialized a) (hz : initialized z)
    (haa : a.size % WORD = 0) (hza : z.size % WORD = 0)
    (hz0 : ∀ b ∈ bytes z, b = 0) (hle : z.size ≤ a.size) (hf : z.size / WORD ≤ fuel) :
    bn_sum le junk moved fuel a z = Outcome.done (a, z) := by
  have ea := initialized_eta ha
  have ez := initialized_eta hz
  have hal := ha.2.1
  have hzl := hz.2.1
  simp only [WORD] at haa hza hf
  have hzr : bytes z = List.replicate (bytes z).length 0 :=
    List.eq_replicate_iff.2 ⟨rfl, hz0⟩
  have hzs : (bytes z).length = 8 * (z.size / 8) := by omega
  have h := bn_sum_zero_eq le junk moved fuel (bytes a) (a.size / 8) (z.size / 8) ha.2.2
    (by omega) (by omega) hf
  rw [← hzs, ← hzr, ← ea, ← ez] at h
  exact h

/-- Witness for C16: a one-word zero added to the two-word magnitude
`[1, 2]`, on a big-endian host. -/
theorem bn_sum_zero_identity_witness :
    initialized ⟨some [0, 0, 0, 0, 0, 0, 0, 1, 0, 0, 0, 0, 0, 0, 0, 2], 16⟩
    ∧ initialized ⟨some [0, 0, 0, 0, 0, 0, 0, 0], 8⟩
    ∧ (⟨some [0, 0, 0, 0, 0, 0, 0, 1, 0, 0, 0, 0, 0, 0, 0, 2], 16⟩ : bn_t).size % WORD = 0
    ∧ (⟨some [0, 0, 0, 0, 0, 0, 0, 0], 8⟩ : bn_t).size % WORD = 0
    ∧ (∀ b ∈ bytes ⟨some [0, 0, 0, 0, 0, 0, 0, 0], 8⟩, b = 0)
    ∧ (⟨some [0, 0, 0, 0, 0, 0, 0, 0], 8⟩ : bn_t).size
        ≤ (⟨some [0, 0, 0, 0, 0, 0, 0, 1, 0, 0, 0, 0, 0, 0, 0, 2], 16⟩ : bn_t).size
    ∧ (⟨some [0, 0, 0, 0, 0, 0, 0, 0], 8⟩ : bn_t).size / WORD ≤ 1
    ∧ bn_sum false (fun _ => 0) false 1 ⟨some [0, 0, 0, 0, 0, 0, 0, 1, 0, 0, 0, 0, 0, 0, 0, 2], 16⟩
          ⟨some [0, 0, 0, 0, 0, 0, 0, 0], 8⟩
        = Outcome.done (⟨some [0, 0, 0, 0, 0, 0, 0, 1, 0, 0, 0, 0, 0, 0, 0, 2], 16⟩,
            ⟨some [0, 0, 0, 0, 0, 0, 0, 0], 8⟩) :=
  ⟨by decide, by decide, by decide, by decide, by decide, by decide, by decide,
    bn_sum_zero_identity false (fun _ => 0) false 1
      ⟨some [0, 0, 0, 0, 0, 0, 0, 1, 0, 0, 0, 0, 0, 0, 0, 2], 16⟩
      ⟨some [0, 0, 0, 0, 0, 0, 0, 0], 8⟩
      (by decide) (by decide) (by decide) (by decide) (by decide) (by decide) (by decide)⟩

/-! ## `bn_sl`: shift by zero, and the size -/

theorem bn_sl_move_fault (inc : Int) (obuf : List Nat) :
    ∀ (shift : Nat) (dbuf : List Nat) (endp num_end : Int) (j : Nat), j < shift →
      load obuf (WORD * (num_end - inc * (j : Int))) WORD = none →
      bn_sl_move inc obuf shift dbuf endp num_end = none := by
  intro shift
  induction shift with
  | zero =>
    intro _ _ _ j hj
    omega
  | succ s ih =>
    intro dbuf endp num_end j hj hl
    rw [bn_sl_move]
    cases j with
    | zero =>
      simp only [Nat.cast_zero, mul_zero, sub_zero] at hl
      rw [hl]
    | succ j1 =>
      cases h1 : load obuf (WORD * num_end) WORD with
      | none => rfl
      | some w =>
        cases h2 : store dbuf (WORD * endp) w with
        | none => simp only [h2]
        | some d1 =>
          simp only [h2]
          apply ih d1 _ _ j1 (by omega)
          rw [← hl]
          congr 2
          push_cast
          ring

/-- Beyond half of the words the block move of `bn_sl` leaves the buffer: for an
initialized magnitude and a bit count whose whole-word part exceeds half of the
words, the call is a memory fault on either byte order. -/
theorem bn_sl_faults (le : Bool) (int_max_shl : Nat → Nat) (a : bn_t) (ha : initialized a)
    (k : Nat) (hk : a.size / WORD < 2 * (k / 64)) :
    bn_sl le int_max_shl a k = none := by
  have hn := initialized_num ha
  have hl := ha.2.1
  simp only [WORD] at hk
  have hW : WORD * 8 = 64 := by decide
  have hmove : ∀ dbuf, bn_sl_move (if le then 1 else -1) (bytes a) (k / (WORD * 8)) dbuf
      (if le then ((a.size / WORD : Nat) : Int) - 1 else 0)
      ((if le then ((a.size / WORD : Nat) : Int) - 1 else 0)
        - (if le then 1 else -1) * ((k / (WORD * 8) : Nat) : Int)) = none := by
    intro dbuf
    apply bn_sl_move_fault _ _ _ _ _ _ (k / 64 - 1) (by rw [hW]; omega)
    simp only [hW]
    simp only [WORD, Nat.cast_ofNat]
    cases le
    · simp only [Bool.false_eq_true, if_false]
      have e : (8 : Int) * (0 - -1 * ((k / 64 : Nat) : Int) - -1 * ((k / 64 - 1 : Nat) : Int))
          = ((8 * (2 * (k / 64) - 1) : Nat) : Int) := by
        omega
      rw [e, load, if_neg]
      simp only [Int.toNat_ofNat]
      omega
    · simp only [if_true]
      rw [load, if_neg]
      omega
  simp only [bn_sl, hn, hmove]

/-- C11, evaluated on a little-endian host: a 16-byte magnitude with both words
equal to 1 (value `2^64 + 1`, most-significant word non-zero) is cut by
`bn_srk` to the 3 bytes `[1, 0, 0]` (value 1): the call is not a no-op, the
value changes and the new size is not a multiple of the word width. -/
theorem bn_srk_changes_value (junk : Nat → Nat) :
    bn_srk true junk ⟨some [1, 0, 0, 0, 0, 0, 0, 0, 1, 0, 0, 0, 0, 0, 0, 0], 16⟩
      = some ⟨some [1, 0, 0], 3⟩
    ∧ valLE [1, 0, 0, 0, 0, 0, 0, 0, 1, 0, 0, 0, 0, 0, 0, 0] = 2 ^ 64 + 1
    ∧ valLE [1, 0, 0] = 1
    ∧ readWord true [1, 0, 0, 0, 0, 0, 0, 0, 1, 0, 0, 0, 0, 0, 0, 0] 1 = some 1 :=
  ⟨rfl, by decide, by decide, by decide⟩

/-- C12, evaluated on a little-endian host: shifting the four words
`[1, 2, 3, 4]` by 64 bits moves one word only (the block-move loop runs `shift`
times) and gives `[0, 0, 0, 3]`, not `[0, 1, 2, 3]`. -/
theorem bn_sl_one_word_of_four (int_max_shl : Nat → Nat) :
    bn_sl true int_max_shl
        ⟨some ([1, 0, 0, 0, 0, 0, 0, 0] ++ [2, 0, 0, 0, 0, 0, 0, 0]
          ++ [3, 0, 0, 0, 0, 0, 0, 0] ++ [4, 0, 0, 0, 0, 0, 0, 0]), 32⟩ 64
      = some ⟨some (List.replicate 24 0 ++ [3, 0, 0, 0, 0, 0, 0, 0]), 32⟩ :=
  rfl

/-- When the shift is exactly half of the words the block move is complete:
the four words `[1, 2, 3, 4]` shifted by 128 bits give `[0, 0, 1, 2]`. -/
theorem bn_sl_two_words_of_four (int_max_shl : Nat → Nat) :
    bn_sl true int_max_shl
        ⟨some ([1, 0, 0, 0, 0, 0, 0, 0] ++ [2, 0, 0, 0, 0, 0, 0, 0]
          ++ [3, 0, 0, 0, 0, 0, 0, 0] ++ [4, 0, 0, 0, 0, 0, 0, 0]), 32⟩ 128
      = some ⟨some (List.replicate 16 0 ++ [1, 0, 0, 0, 0, 0, 0, 0]
          ++ [2, 0, 0, 0, 0, 0, 0, 0]), 32⟩ :=
  rfl

/-- C13, evaluated: shifting a one-word magnitude by 64 bits (its full width)
makes the block-move loop read a word outside the buffer, in front of it on a
little-endian host and behind it on a big-endian host. -/
theorem bn_sl_full_width_faults (le : Bool) (int_max_shl : Nat → Nat) :
    bn_sl le int_max_shl ⟨some [1, 0, 0, 0, 0, 0, 0, 0], 8⟩ 64 = none := by
  cases le <;> rfl

theorem carry_of_top_bit (m : Nat) : ((2 ^ 63 &&& m) >>> 1) % 256 = 0 := by
  apply Nat.eq_of_testBit_eq
  intro i
  rw [show (256 : Nat) = 2 ^ 8 by norm_num, Nat.testBit_mod_two_pow, Nat.testBit_shiftRight,
    Nat.testBit_and, Nat.testBit_two_pow]
  by_cases h : i < 8
  · have : ¬ (63 = 1 + i) := by omega
    simp [this]
  · simp [h]

/-- C14, evaluated on a little-endian host: whatever `INT_MAX << 1` evaluates
to, shifting `[0x8000000000000000, 0]` left by one bit gives `[0, 0]`, not
`[0, 1]`: the bit shifted out of word 0 does not survive in the 8-bit carry. -/
theorem bn_sl_loses_carry (int_max_shl : Nat → Nat) :
    bn_sl true int_max_shl
        ⟨some ([0, 0, 0, 0, 0, 0, 0, 128] ++ [0, 0, 0, 0, 0, 0, 0, 0]), 16⟩ 1
      = some ⟨some (List.replicate 16 0), 16⟩ := by
  have h1 : readWord true ([0, 0, 0, 0, 0, 0, 0, 128] ++ [0, 0, 0, 0, 0, 0, 0, 0]) 0
      = some (2 ^ 63) := by decide
  have h2 : writeWord true ([0, 0, 0, 0, 0, 0, 0, 128] ++ [0, 0, 0, 0, 0, 0, 0, 0]) 0 0
      = some (List.replicate 16 0) := by decide
  have h3 : readWord true (List.replicate 16 0) 1 = some 0 := by decide
  have h4 : writeWord true (List.replicate 16 0) 1 0 = some (List.replicate 16 0) := by decide
  have h5 : ((2 : Nat) ^ 63 <<< 1) % TWO64 ||| 0 = 0 := by decide
  have hv : 1 - 0 * (WORD * 8) = 1 := by decide
  have hs : 1 / (WORD * 8) = 0 := by decide
  have hn : ¬ (1 ≥ WORD * 8) := by decide
  have hw : 16 / WORD = 2 := by decide
  have h6 : (0 <<< 1) % TWO64 ||| 0 = 0 := by decide
  simp only [bn_sl, hs, hv, hn, hw, if_false, if_true, Option.getD_none, bn_sl_move,
    bn_sl_bits, Nat.lt_irrefl, gt_iff_lt, Nat.zero_lt_one, zero_add, h1, h5, h2,
    carry_of_top_bit, h3, h6, h4]

/-! ## Claims on the termination of the addition -/

/-- C20, evaluated on a big-endian host: for the two-word operands
`0xFFFFFFFFFFFFFFFF_FFFFFFFFFFFFFFFF` and 1, no number of rounds lets `bn_sum`
end normally: after the carry-out of the most-significant word the cursor
`num1`, which is not derived again, is in front of the block it came from (a
released block, when `realloc` moved it), not on the freshly added word, and
the round that should absorb the carry is a memory fault. -/
theorem bn_sum_big_endian_never_done (junk : Nat → Nat) (moved : Bool) (fuel : Nat) :
    bn_sum false junk moved (fuel + 3)
        ⟨some (List.replicate 16 255), 16⟩
        ⟨some [0, 0, 0, 0, 0, 0, 0, 0, 0, 0, 0, 0, 0, 0, 0, 1], 16⟩ = Outcome.fault
    ∧ ∀ n, n < 3 → bn_sum false junk moved n
        ⟨some (List.replicate 16 255), 16⟩
        ⟨some [0, 0, 0, 0, 0, 0, 0, 0, 0, 0, 0, 0, 0, 0, 0, 1], 16⟩ = Outcome.timeout := by
  refine ⟨by cases moved <;> rfl, ?_⟩
  intro n hn
  interval_cases n <;> cases moved <;> rfl

/-- On a little-endian host whose `realloc` extends the block in place,
`max (dst words) (addend words) + 1` rounds are enough for `bn_sum` to end
normally, on all initialized word-aligned operands. -/
theorem bn_sum_rounds_little_endian (junk : Nat → Nat) (fuel : Nat) (dst addend : bn_t)
    (hd : initialized dst) (ha : initialized addend)
    (hds : dst.size % WORD = 0) (has : addend.size % WORD = 0)
    (hf : max (dst.size / WORD) (addend.size / WORD) + 1 ≤ fuel) :
    ∃ r, bn_sum true junk false fuel dst addend = Outcome.done (r, addend) := by
  have ed := initialized_eta hd
  have ea := initialized_eta ha
  have hdl := hd.2.1
  have hal := ha.2.1
  simp only [WORD] at hds has hf
  obtain ⟨r, hrun, _, _, _⟩ := bn_sum_le junk false (bytes dst) (bytes addend)
    (dst.size / 8) (addend.size / 8) hd.2.2 (by omega) ha.2.2 (by omega) fuel hf
  rw [if_neg (by simp), ← ed, ← ea] at hrun
  exact ⟨_, hrun⟩

end Bntl
